import Mathlib

/-!
Verification development for a small in-memory key/value server speaking the
RESP wire protocol (mini-redis).  The definitions below are a shallow
embedding of the server engine: the frame codec (frame.rs, connection.rs),
the shared store (db.rs), the command parser (parse.rs, commands/), and the
per-connection handler loop (server.rs, commands/subscribe.rs).

Modelling conventions:
- Rust bytes are Nat values below 256; byte strings and Rust String values
  are List Nat of their UTF-8 bytes.  Machine integers are Nat with explicit
  bounds or mod 2^64 where a cast occurs.
- The std Cursor over a byte slice is modelled in suffix-passing style: a
  reader takes the remaining bytes and returns the suffix after what it
  consumed; consumed length is the difference of lengths.
- Fallible Rust code returns Except; a Rust panic (unreachable, the
  unimplemented arm of Frame::parse) is modelled as a distinguished error or
  as Option none, as documented at each definition.
- Recursive frame walkers take a fuel argument that decreases at each Array
  nesting level; fuel exhaustion yields a distinguished error message, and
  every theorem supplies fuel at least the frame depth so the distinguished
  error never occurs.
- tokio Instant is a Nat; Instant::now() becomes an explicit now argument.
- Duration is a Nat counting milliseconds (from_secs multiplies by 1000).
-/

/-- ASCII bytes of a Lean string literal (used only on ASCII literals, where
codepoints and UTF-8 bytes coincide). -/
def str2b (s : String) : List Nat := s.data.map Char.toNat

/-- Size of the u64 value space. -/
def u64size : Nat := 2 ^ 64

/-- CR LF terminator bytes. -/
def crlf : List Nat := [13, 10]

/-- Byte-lexicographic strict order on byte strings, as Rust String Ord. -/
def bytesLt : List Nat → List Nat → Bool
  | [], [] => false
  | [], _ :: _ => true
  | _ :: _, [] => false
  | a :: xs, b :: ys => if a < b then true else if b < a then false else bytesLt xs ys

/-- Strict order on (Instant, key) pairs: tuple lexicographic order, as the
BTreeSet in db.rs orders its elements. -/
def expLt (p q : Nat × List Nat) : Bool :=
  if p.1 < q.1 then true else if q.1 < p.1 then false else bytesLt p.2 q.2

/-- ASCII uppercase of a byte (models str::to_uppercase, which agrees with
ASCII uppercasing on the ASCII keyword bytes the commands compare against). -/
def upByte (b : Nat) : Nat := if 97 ≤ b ∧ b ≤ 122 then b - 32 else b

/-- ASCII lowercase of a byte (models str::to_lowercase on ASCII data). -/
def lowByte (b : Nat) : Nat := if 65 ≤ b ∧ b ≤ 90 then b + 32 else b

/-- ASCII uppercase of a byte string. -/
def asciiUpper (s : List Nat) : List Nat := s.map upByte

/-- ASCII lowercase of a byte string. -/
def asciiLower (s : List Nat) : List Nat := s.map lowByte

/-- Whether a byte is an ASCII decimal digit. -/
def isDigitByte (b : Nat) : Bool := 48 ≤ b && b ≤ 57

/-- Value of an ASCII digit string, most significant digit first. -/
def atoiVal (l : List Nat) : Nat := l.foldl (fun acc b => acc * 10 + (b - 48)) 0

/-- Model of atoi::atoi::<u64> from the atoi crate (an external dependency,
modelled from the spec wording: a decimal is a digit string): the whole slice
must be nonempty decimal digits and the value must fit in u64, otherwise
None.  Per-step checked u64 arithmetic fails exactly when the final value
reaches 2^64, because intermediate accumulators never exceed the final
value. -/
def atoi (l : List Nat) : Option Nat :=
  if l ≠ [] ∧ l.all isDigitByte = true ∧ atoiVal l < u64size then some (atoiVal l) else none

/-- Digit-writing worker: fuel bounds the recursion structurally so that
the kernel can evaluate it; any fuel above n is enough. -/
def natDigitsAux : Nat → Nat → List Nat
  | 0, _ => []
  | fuel + 1, n => if n < 10 then [48 + n] else natDigitsAux fuel (n / 10) ++ [48 + n % 10]

/-- ASCII decimal digits of a Nat, most significant first, as the write!
formatting of a u64 in Connection::write_decimal produces. -/
def natDigits (n : Nat) : List Nat := natDigitsAux (n + 1) n

/-- Whether a byte string contains neither CR nor LF. -/
def noCRLF (s : List Nat) : Bool := s.all fun b => b ≠ 13 && b ≠ 10

/-- Whether a byte is a UTF-8 continuation byte. -/
def isCont (b : Nat) : Bool := 128 ≤ b && b ≤ 191

/-- Model of str::from_utf8 validity (Rust std UTF-8 validation automaton,
including the overlong, surrogate and out-of-range restrictions). -/
def validUtf8 : List Nat → Bool
  | [] => true
  | b :: rest =>
    if b ≤ 127 then validUtf8 rest
    else
      match rest with
      | [] => false
      | c1 :: r1 =>
        if 194 ≤ b ∧ b ≤ 223 then isCont c1 && validUtf8 r1
        else
          match r1 with
          | [] => false
          | c2 :: r2 =>
            if b = 224 then (160 ≤ c1 && c1 ≤ 191) && (isCont c2 && validUtf8 r2)
            else if (225 ≤ b ∧ b ≤ 236) ∨ b = 238 ∨ b = 239 then
              isCont c1 && (isCont c2 && validUtf8 r2)
            else if b = 237 then (128 ≤ c1 && c1 ≤ 159) && (isCont c2 && validUtf8 r2)
            else
              match r2 with
              | [] => false
              | c3 :: r3 =>
                if b = 240 then
                  (144 ≤ c1 && c1 ≤ 191) && (isCont c2 && (isCont c3 && validUtf8 r3))
                else if 241 ≤ b ∧ b ≤ 243 then
                  isCont c1 && (isCont c2 && (isCont c3 && validUtf8 r3))
                else if b = 244 then
                  (128 ≤ c1 && c1 ≤ 143) && (isCont c2 && (isCont c3 && validUtf8 r3))
                else false

/-- RESP frame (frame.rs).  String payloads are carried as their UTF-8
bytes; the Rust types guarantee those byte lists are valid UTF-8, which
appears here as an explicit hypothesis where it matters. -/
inductive Frame where
  | null : Frame
  | simple (s : List Nat) : Frame
  | integer (n : Nat) : Frame
  | bulk (b : List Nat) : Frame
  | array (xs : List Frame) : Frame
  | error (s : List Nat) : Frame

/-- Decode error (frame.rs Error): more data needed, or a protocol error
carrying its message bytes. -/
inductive FrameError where
  | incomplete : FrameError
  | other (msg : List Nat) : FrameError
deriving DecidableEq

/-- Message of the generic protocol format error (frame.rs). -/
def protoInvalidFmt : List Nat := str2b "protocol error; invalid frame format"

/-- Message for an invalid leading type byte; the byte is printed in decimal
inside backticks (byte 96). -/
def invalidTypeMsg (b : Nat) : List Nat :=
  str2b "protocol error; invalid frame type byte " ++ [96] ++ natDigits b ++ [96]

/-- Marker message for fuel exhaustion of the embedded walkers; never
produced when fuel is at least the frame depth. -/
def outOfFuelMsg : List Nat := str2b "model: out of fuel"

/-- Marker for the unimplemented arm of Frame::parse, which panics in the
source; a checked buffer never reaches it. -/
def unimplementedMsg : List Nat := str2b "model: unimplemented frame type"

/-- Scan for the first CRLF pair and split there (parse_utils::get_line).
A lone final byte can never start a CRLF pair, matching the source loop
bound end = len - 1. -/
def getLine : List Nat → Option (List Nat × List Nat)
  | [] => none
  | [_] => none
  | b :: c :: rest =>
    if b = 13 ∧ c = 10 then some ([], rest)
    else (getLine (c :: rest)).map fun p => (b :: p.1, p.2)

/-- Advance past n bytes if available (parse_utils::skip). -/
def skipBytes (n : Nat) (input : List Nat) : Except FrameError (List Nat) :=
  if input.length < n then .error .incomplete else .ok (input.drop n)

/-- Read a decimal line (parse_utils::get_decimal): a full line terminated
by CRLF, parsed with atoi::<u64>. -/
def getDecimal (input : List Nat) : Except FrameError (Nat × List Nat) :=
  match getLine input with
  | none => .error .incomplete
  | some (line, rest) =>
    match atoi line with
    | none => .error (.other protoInvalidFmt)
    | some n => .ok (n, rest)

/-- Run a frame walker n times in sequence (the for-loop over array
elements in Frame::check and Frame::parse). -/
def checkMany (chk : List Nat → Except FrameError (List Nat)) :
    Nat → List Nat → Except FrameError (List Nat)
  | 0, input => .ok input
  | n + 1, input =>
    match chk input with
    | .ok rest => checkMany chk n rest
    | .error e => .error e

/-- Frame::check: walk one frame without building it, returning the suffix
after the frame.  Fuel decreases at each Array nesting level. -/
def check : Nat → List Nat → Except FrameError (List Nat)
  | 0, _ => .error (.other outOfFuelMsg)
  | fuel + 1, input =>
    match input with
    | [] => .error .incomplete
    | b :: rest =>
      if b = 43 ∨ b = 45 then
        match getLine rest with
        | none => .error .incomplete
        | some (_, r) => .ok r
      else if b = 58 then
        match getDecimal rest with
        | .ok (_, r) => .ok r
        | .error e => .error e
      else if b = 36 then
        match rest with
        | [] => .error .incomplete
        | c :: _ =>
          if c = 45 then skipBytes 4 rest
          else
            match getDecimal rest with
            | .ok (len, r) => skipBytes (len + 2) r
            | .error e => .error e
      else if b = 42 then
        match getDecimal rest with
        | .ok (n, r) => checkMany (check fuel) n r
        | .error e => .error e
      else .error (.other (invalidTypeMsg b))

/-- Run a frame parser n times, collecting the frames (the for-loop in the
Array arm of Frame::parse). -/
def parseMany (p : List Nat → Except FrameError (Frame × List Nat)) :
    Nat → List Nat → Except FrameError (List Frame × List Nat)
  | 0, input => .ok ([], input)
  | n + 1, input =>
    match p input with
    | .ok (f, rest) =>
      match parseMany p n rest with
      | .ok (fs, r) => .ok (f :: fs, r)
      | .error e => .error e
    | .error e => .error e

/-- Frame::parse: build one frame from a buffer already validated by check,
returning it with the suffix after it. -/
def parseFrame : Nat → List Nat → Except FrameError (Frame × List Nat)
  | 0, _ => .error (.other outOfFuelMsg)
  | fuel + 1, input =>
    match input with
    | [] => .error .incomplete
    | b :: rest =>
      if b = 43 then
        match getLine rest with
        | none => .error .incomplete
        | some (line, r) =>
          if validUtf8 line then .ok (.simple line, r) else .error (.other protoInvalidFmt)
      else if b = 45 then
        match getLine rest with
        | none => .error .incomplete
        | some (line, r) =>
          if validUtf8 line then .ok (.error line, r) else .error (.other protoInvalidFmt)
      else if b = 58 then
        match getDecimal rest with
        | .ok (n, r) => .ok (.integer n, r)
        | .error e => .error e
      else if b = 36 then
        match rest with
        | [] => .error .incomplete
        | c :: _ =>
          if c = 45 then
            match getLine rest with
            | none => .error .incomplete
            | some (line, r) =>
              if line = [45, 49] then .ok (.null, r) else .error (.other protoInvalidFmt)
          else
            match getDecimal rest with
            | .ok (len, r) =>
              if r.length < len + 2 then .error .incomplete
              else .ok (.bulk (r.take len), r.drop (len + 2))
            | .error e => .error e
      else if b = 42 then
        match getDecimal rest with
        | .ok (n, r) =>
          match parseMany (parseFrame fuel) n r with
          | .ok (fs, r2) => .ok (.array fs, r2)
          | .error e => .error e
        | .error e => .error e
      else .error (.other unimplementedMsg)

/-- Digits of a u64 followed by CRLF (Connection::write_decimal). -/
def writeDec (n : Nat) : List Nat := natDigits n ++ crlf

/-- Connection::write_value: the byte image of one non-array frame.  The
Array arm of write_value is unreachable code that panics, modelled as none.
The two len() as u64 casts are modelled as mod 2^64. -/
def writeValue : Frame → Option (List Nat)
  | .simple s => some (43 :: (s ++ crlf))
  | .error s => some (45 :: (s ++ crlf))
  | .integer n => some (58 :: writeDec n)
  | .null => some [36, 45, 49, 13, 10]
  | .bulk b => some (36 :: (writeDec (b.length % u64size) ++ b ++ crlf))
  | .array _ => none

/-- Byte image of a sequence of frames written with write_value, none as
soon as one element is an array. -/
def writeList : List Frame → Option (List Nat)
  | [] => some []
  | f :: fs =>
    match writeValue f, writeList fs with
    | some b, some rest => some (b ++ rest)
    | _, _ => none

/-- Connection::write_frame: the full byte image of one top-level frame.
An array writes its header then each element through write_value; none
models the panic on an array element nested inside an array. -/
def writeFrame : Frame → Option (List Nat)
  | .array xs => (writeList xs).map fun body => 42 :: (writeDec (xs.length % u64size) ++ body)
  | f => writeValue f

/-- Connection::parse_frame: check the buffer, then on success re-parse and
report the frame together with the consumed length, which is taken from the
position check reached.  Incomplete from check asks for more bytes (ok
none); any other error propagates.  The fuel buf.length + 1 always exceeds
the nesting depth reachable inside buf. -/
def connParseFrame (buf : List Nat) : Except FrameError (Option (Frame × Nat)) :=
  match check (buf.length + 1) buf with
  | .ok rem =>
    match parseFrame (buf.length + 1) buf with
    | .ok (f, _) => .ok (some (f, buf.length - rem.length))
    | .error e => .error e
  | .error .incomplete => .ok none
  | .error e => .error e

mutual
/-- Byte encoding of a frame as written in section 4.1 of the spec: defined
on every frame, including arrays nested in arrays.  This is the spec-side
description the writer is compared against. -/
def specEncode : Frame → List Nat
  | .simple s => 43 :: (s ++ crlf)
  | .error s => 45 :: (s ++ crlf)
  | .integer n => 58 :: (natDigits n ++ crlf)
  | .null => [36, 45, 49, 13, 10]
  | .bulk b => 36 :: (natDigits b.length ++ crlf ++ (b ++ crlf))
  | .array xs => 42 :: (natDigits (specLen xs) ++ crlf ++ specEncodeList xs)

/-- Concatenation of the spec encodings of a list of frames. -/
def specEncodeList : List Frame → List Nat
  | [] => []
  | f :: fs => specEncode f ++ specEncodeList fs

/-- Length of a frame list (kept in the mutual block for termination). -/
def specLen : List Frame → Nat
  | [] => 0
  | _ :: fs => 1 + specLen fs
end

mutual
/-- Well-formedness a frame enjoys by construction in the Rust types:
Simple and Error payloads are CR/LF-free valid UTF-8 (String invariant plus
the data-model invariant of section 3), and integers and lengths fit u64. -/
def wfb : Frame → Bool
  | .simple s => noCRLF s && validUtf8 s
  | .error s => noCRLF s && validUtf8 s
  | .integer n => decide (n < u64size)
  | .bulk b => decide (b.length < u64size)
  | .null => true
  | .array xs => decide (wfLen xs < u64size) && wfbList xs

/-- Well-formedness of every frame in a list. -/
def wfbList : List Frame → Bool
  | [] => true
  | f :: fs => wfb f && wfbList fs

/-- List length, kept inside the mutual block. -/
def wfLen : List Frame → Nat
  | [] => 0
  | _ :: fs => 1 + wfLen fs
end

mutual
/-- Nesting depth of a frame: the fuel the walkers need. -/
def depth : Frame → Nat
  | .array xs => depthList xs + 1
  | _ => 1

/-- Maximum depth over a list of frames. -/
def depthList : List Frame → Nat
  | [] => 0
  | f :: fs => max (depth f) (depthList fs)
end

mutual
/-- Whether a frame contains a Null directly inside an Array (the frames
the round-trip sentence of the spec excludes). -/
def hasNullInArray : Frame → Bool
  | .array xs => hasNullElem xs
  | _ => false

/-- Whether a frame list contains a Null element or a deeper violation. -/
def hasNullElem : List Frame → Bool
  | [] => false
  | .null :: _ => true
  | f :: fs => hasNullInArray f || hasNullElem fs
end

mutual
/-- Whether all lengths that the writer casts with as u64 fit in u64 (true
of everything the Rust process can physically build). -/
def u64Ok : Frame → Bool
  | .bulk b => decide (b.length < u64size)
  | .array xs => decide (u64Len xs < u64size) && u64OkList xs
  | _ => true

/-- u64Ok for every frame of a list. -/
def u64OkList : List Frame → Bool
  | [] => true
  | f :: fs => u64Ok f && u64OkList fs

/-- List length, kept inside the mutual block. -/
def u64Len : List Frame → Nat
  | [] => 0
  | _ :: fs => 1 + u64Len fs
end

/-! Store model (db.rs).  The HashMap fields become association lists with
unique keys, the BTreeSet of (Instant, key) pairs becomes a list kept
sorted in the strict order expLt, and each broadcast endpoint is reduced to
its capacity and its count of attached receivers. -/

/-- First binding of a key in an association list (HashMap::get). -/
def alookup {α : Type} : List (List Nat × α) → List Nat → Option α
  | [], _ => none
  | (k, v) :: rest, key => if k = key then some v else alookup rest key

/-- HashMap::insert: replace the binding in place, returning the previous
value, or append a fresh binding. -/
def ainsert {α : Type} : List (List Nat × α) → List Nat → α → Option α × List (List Nat × α)
  | [], key, v => (none, [(key, v)])
  | (k, w) :: rest, key, v =>
    if k = key then (some w, (key, v) :: rest)
    else
      let p := ainsert rest key v
      (p.1, (k, w) :: p.2)

/-- HashMap::remove (value discarded): drop the first binding of the key. -/
def aerase {α : Type} : List (List Nat × α) → List Nat → List (List Nat × α)
  | [], _ => []
  | (k, w) :: rest, key => if k = key then rest else (k, w) :: aerase rest key

/-- Ordered insert into the sorted expirations list (BTreeSet::insert);
inserting an element already present leaves the set unchanged. -/
def btInsert : List (Nat × List Nat) → Nat × List Nat → List (Nat × List Nat)
  | [], p => [p]
  | q :: rest, p =>
    if expLt p q then p :: q :: rest
    else if p = q then q :: rest
    else q :: btInsert rest p

/-- Removal from the expirations list (BTreeSet::remove). -/
def btRemove : List (Nat × List Nat) → Nat × List Nat → List (Nat × List Nat)
  | [], _ => []
  | q :: rest, p => if p = q then rest else q :: btRemove rest p

/-- Stored value (db.rs Entry): payload bytes and optional expiry instant. -/
structure DbEntry where
  data : List Nat
  expires_at : Option Nat
deriving DecidableEq

/-- Broadcast endpoint of one pub/sub channel: creation capacity and the
number of currently attached receivers. -/
structure PubChan where
  capacity : Nat
  receivers : Nat
deriving DecidableEq

/-- The State struct of db.rs guarded by the mutex. -/
structure DbState where
  entries : List (List Nat × DbEntry)
  pub_sub : List (List Nat × PubChan)
  expirations : List (Nat × List Nat)
  shutdown : Bool
deriving DecidableEq

/-- State::next_expiration: instant of the first (least) element of the
sorted expirations set. -/
def nextExpiration (st : DbState) : Option Nat := st.expirations.head?.map Prod.fst

/-- Db::get: clone of the stored bytes, if any. -/
def dbGet (st : DbState) (key : List Nat) : Option (List Nat) :=
  (alookup st.entries key).map DbEntry.data

/-- Db::set.  Returns the new state and whether the background task is
notified: true iff an expiry is given and it is strictly earlier than the
previously-recorded next expiration (or none was recorded).  The expiry
instant is now + duration; the previous binding of the key is replaced, its
expiration pair (if any) removed, and the new pair (if any) inserted. -/
def dbSet (st : DbState) (key data : List Nat) (expire : Option Nat) (now : Nat) :
    DbState × Bool :=
  let notify :=
    match expire with
    | none => false
    | some d =>
      match nextExpiration st with
      | none => true
      | some m => now + d < m
  let expires_at := expire.map fun d => now + d
  let ins := ainsert st.entries key { data := data, expires_at := expires_at }
  let exp1 :=
    match ins.1 with
    | some prev =>
      match prev.expires_at with
      | some pe => btRemove st.expirations (pe, key)
      | none => st.expirations
    | none => st.expirations
  let exp2 :=
    match expires_at with
    | some t => btInsert exp1 (t, key)
    | none => exp1
  ({ st with entries := ins.2, expirations := exp2 }, notify)

/-- Db::subscribe: return a fresh receiver on the channel endpoint, creating
the endpoint with capacity 1024 on first use.  The model records only the
receiver count. -/
def dbSubscribe (st : DbState) (key : List Nat) : DbState :=
  match alookup st.pub_sub key with
  | some c =>
    { st with pub_sub := (ainsert st.pub_sub key { c with receivers := c.receivers + 1 }).2 }
  | none =>
    { st with pub_sub := (ainsert st.pub_sub key { capacity := 1024, receivers := 1 }).2 }

/-- Model of broadcast::Sender::send: the number of attached receivers on
success, none when no receiver is attached (SendError). -/
def chanSend (c : PubChan) : Option Nat :=
  if c.receivers = 0 then none else some c.receivers

/-- Model of dropping one receiver of a channel (broadcast::Receiver drop,
e.g. when a subscriber disconnects or unsubscribes). -/
def dropReceiver (st : DbState) (key : List Nat) : DbState :=
  match alookup st.pub_sub key with
  | some c =>
    { st with pub_sub := (ainsert st.pub_sub key { c with receivers := c.receivers - 1 }).2 }
  | none => st

/-- Db::publish: number of subscribers that received the message; missing
endpoint or a rejected send both give 0, and the state is untouched (the
message bytes influence only the channel ring buffer, which the claims do
not observe). -/
def dbPublish (st : DbState) (key : List Nat) (_value : List Nat) : Nat :=
  match alookup st.pub_sub key with
  | some c =>
    match chanSend c with
    | some n => n
    | none => 0
  | none => 0

/-- Db::shutdown_purge_task: raise the shutdown flag (and signal the
background task, which carries no state here). -/
def shutdownPurgeTask (st : DbState) : DbState := { st with shutdown := true }

/-- Loop body of Shared::purge_expired_keys: while the least expiration is
due, remove the entry and its pair; answer the next pending instant, if
any.  Iterating the BTreeSet starts at its least element, the head of the
sorted list, and removing it leaves the tail. -/
def purgeLoop :
    List (List Nat × DbEntry) → List (Nat × List Nat) → Nat →
    List (List Nat × DbEntry) × List (Nat × List Nat) × Option Nat
  | entries, [], _ => (entries, [], none)
  | entries, (wh, key) :: rest, now =>
    if now < wh then (entries, (wh, key) :: rest, some wh)
    else purgeLoop (aerase entries key) rest now

/-- Shared::purge_expired_keys: nothing happens once shutdown is set;
otherwise expired keys are purged and the next deadline returned. -/
def purgeExpiredKeys (st : DbState) (now : Nat) : DbState × Option Nat :=
  if st.shutdown then (st, none)
  else
    let r := purgeLoop st.entries st.expirations now
    ({ st with entries := r.1, expirations := r.2.1 }, r.2.2)

/-! Command layer (parse.rs and the commands module).  The Parse cursor over
an Array frame becomes suffix passing over its element list. -/

/-- Error while walking a command frame (parse.rs ParseError): cursor
exhausted, or another error carrying its message bytes. -/
inductive ParseError where
  | endOfStream : ParseError
  | other (msg : List Nat) : ParseError
deriving DecidableEq

/-- Message when a bulk argument is not UTF-8 (Parse::next_string). -/
def invalidStringMsg : List Nat := str2b "protocol error; invalid string"

/-- Message when an argument is not numeric (Parse::next_int). -/
def invalidNumberMsg : List Nat := str2b "protocol error; invalid number"

/-- Message when arguments remain after a command (Parse::finish). -/
def finishMoreMsg : List Nat := str2b "protocol error; expected end of frame but there was more"

/-- Message of Parse::new on a non-array frame; the Debug dump of the
offending frame that the source appends is not reproduced. -/
def expectedArrayMsg : List Nat := str2b "protocol error; expected array, got "

/-- Message of next_string and next_bytes on a frame of the wrong shape;
the Debug dump of the frame is not reproduced. -/
def expectedBulkMsg : List Nat := str2b "protocol error; expected simple or bulk frame but got "

/-- Message of next_int on a frame of the wrong shape; the Debug dump of
the frame is not reproduced. -/
def expectedIntMsg : List Nat := str2b "protocol error; expect int frame but got "

/-- Message when SET sees a third argument other than EX and PX. -/
def setOnlyMsg : List Nat :=
  str2b "currently " ++ [96] ++ str2b "SET" ++ [96] ++
    str2b " only supports the expiration option"

/-- Message of Command::apply on an Unsubscribe outside subscribe mode. -/
def unsubUnsupportedMsg : List Nat :=
  [96] ++ str2b "Unsubscribe" ++ [96] ++ str2b " is unsupported in this context"

/-- String view of one argument frame (the body of Parse::next_string):
a Simple is its payload, a Bulk must decode as UTF-8. -/
def strOfFrame : Frame → Except ParseError (List Nat)
  | .simple s => .ok s
  | .bulk d => if validUtf8 d then .ok d else .error (.other invalidStringMsg)
  | _ => .error (.other expectedBulkMsg)

/-- Parse::next_string over the remaining arguments. -/
def nextString : List Frame → Except ParseError (List Nat × List Frame)
  | [] => .error .endOfStream
  | f :: rest => (strOfFrame f).map fun s => (s, rest)

/-- Parse::next_bytes: a Simple yields its bytes, a Bulk its payload. -/
def nextBytes : List Frame → Except ParseError (List Nat × List Frame)
  | [] => .error .endOfStream
  | .simple s :: rest => .ok (s, rest)
  | .bulk d :: rest => .ok (d, rest)
  | _ :: _ => .error (.other expectedBulkMsg)

/-- Parse::next_int: an Integer directly, or a Simple or Bulk through
atoi::<u64>. -/
def nextInt : List Frame → Except ParseError (Nat × List Frame)
  | [] => .error .endOfStream
  | .integer v :: rest => .ok (v, rest)
  | .simple s :: rest =>
    match atoi s with
    | some n => .ok (n, rest)
    | none => .error (.other invalidNumberMsg)
  | .bulk d :: rest =>
    match atoi d with
    | some n => .ok (n, rest)
    | none => .error (.other invalidNumberMsg)
  | _ :: _ => .error (.other expectedIntMsg)

/-- Parse::finish: the cursor must be exhausted. -/
def finishParse : List Frame → Except ParseError Unit
  | [] => .ok ()
  | _ :: _ => .error (.other finishMoreMsg)

/-- Collect next_string results until EndOfStream (the loops of
Subscribe::parse_frame and Unsubscribe::parse_frame). -/
def parseStrings : List Frame → Except ParseError (List (List Nat))
  | [] => .ok []
  | f :: rest =>
    match strOfFrame f with
    | .ok s =>
      match parseStrings rest with
      | .ok ss => .ok (s :: ss)
      | .error e => .error e
    | .error e => .error e

/-- Supported commands (commands/mod.rs Command), with the fields of each
verb struct inlined. -/
inductive Command where
  | get (key : List Nat) : Command
  | set (key value : List Nat) (expire : Option Nat) : Command
  | publish (channel message : List Nat) : Command
  | subscribe (channels : List (List Nat)) : Command
  | unsubscribe (channels : List (List Nat)) : Command
  | ping (msg : Option (List Nat)) : Command
  | unknown (name : List Nat) : Command

/-- Set::parse_frames: key, value, then optionally one EX or PX expiration
whose keyword is matched through to_uppercase; any other third token is an
error.  Durations count milliseconds (from_secs multiplies by 1000). -/
def setParseFrames (parts : List Frame) :
    Except ParseError ((List Nat × List Nat × Option Nat) × List Frame) :=
  match nextString parts with
  | .error e => .error e
  | .ok (key, r1) =>
    match nextBytes r1 with
    | .error e => .error e
    | .ok (value, r2) =>
      match nextString r2 with
      | .ok (s, r3) =>
        if asciiUpper s = str2b "EX" then
          match nextInt r3 with
          | .ok (secs, r4) => .ok ((key, value, some (1000 * secs)), r4)
          | .error e => .error e
        else if asciiUpper s = str2b "PX" then
          match nextInt r3 with
          | .ok (ms, r4) => .ok ((key, value, some ms), r4)
          | .error e => .error e
        else .error (.other setOnlyMsg)
      | .error .endOfStream => .ok ((key, value, none), r2)
      | .error e => .error e

/-- Ping::parse_frames: optional message through next_bytes. -/
def pingParseFrames (parts : List Frame) :
    Except ParseError (Option (List Nat) × List Frame) :=
  match nextBytes parts with
  | .ok (msg, r) => .ok (some msg, r)
  | .error .endOfStream => .ok (none, parts)
  | .error e => .error e

/-- Command::from_frame: reject non-arrays, lowercase the first string, and
dispatch; an unrecognized verb returns Unknown at once, skipping the final
finish check that every recognized verb undergoes. -/
def fromFrame : Frame → Except ParseError Command
  | .array parts =>
    match nextString parts with
    | .error e => .error e
    | .ok (name, rest) =>
      let lname := asciiLower name
      if lname = str2b "get" then
        match nextString rest with
        | .ok (k, r) =>
          match finishParse r with
          | .ok _ => .ok (.get k)
          | .error e => .error e
        | .error e => .error e
      else if lname = str2b "set" then
        match setParseFrames rest with
        | .ok ((k, v, e), r) =>
          match finishParse r with
          | .ok _ => .ok (.set k v e)
          | .error e => .error e
        | .error e => .error e
      else if lname = str2b "publish" then
        match nextString rest with
        | .ok (ch, r1) =>
          match nextBytes r1 with
          | .ok (msg, r2) =>
            match finishParse r2 with
            | .ok _ => .ok (.publish ch msg)
            | .error e => .error e
          | .error e => .error e
        | .error e => .error e
      else if lname = str2b "subscribe" then
        match nextString rest with
        | .ok (c1, r1) =>
          match parseStrings r1 with
          | .ok cs => .ok (.subscribe (c1 :: cs))
          | .error e => .error e
        | .error e => .error e
      else if lname = str2b "unsubscribe" then
        match parseStrings rest with
        | .ok cs => .ok (.unsubscribe cs)
        | .error e => .error e
      else if lname = str2b "ping" then
        match pingParseFrames rest with
        | .ok (m, r) =>
          match finishParse r with
          | .ok _ => .ok (.ping m)
          | .error e => .error e
        | .error e => .error e
      else .ok (.unknown lname)
  | _ => .error (.other expectedArrayMsg)

/-- Command::get_name. -/
def Command.getName : Command → List Nat
  | .get _ => str2b "get"
  | .set _ _ _ => str2b "set"
  | .publish _ _ => str2b "publish"
  | .subscribe _ => str2b "subscribe"
  | .unsubscribe _ => str2b "unsubscribe"
  | .ping _ => str2b "ping"
  | .unknown n => n

/-- Response frame of Get::apply: the value as Bulk, or Null. -/
def getApply (st : DbState) (key : List Nat) : Frame :=
  match dbGet st key with
  | some v => .bulk v
  | none => .null

/-- Response frame of Unknown::apply. -/
def unknownResponse (name : List Nat) : Frame :=
  .error (str2b "ERR unknown command " ++ [39] ++ name ++ [39])

/-- Response frame of Ping::apply. -/
def pingResponse : Option (List Nat) → Frame
  | none => .simple (str2b "PONG")
  | some msg => .bulk msg

/-- Command::apply, one step of the handler: the new store state, the
response frames written, and, for Subscribe, the pending channel list with
which the connection enters the subscribe-mode loop (whose body is
handleSubCommand below).  Unsubscribe outside subscribe mode is an error
and writes nothing. -/
def Command.apply (cmd : Command) (st : DbState) (now : Nat) :
    Except ParseError (DbState × List Frame × Option (List (List Nat))) :=
  match cmd with
  | .get k => .ok (st, [getApply st k], none)
  | .set k v e => .ok ((dbSet st k v e now).1, [.simple (str2b "OK")], none)
  | .publish ch msg => .ok (st, [.integer (dbPublish st ch msg)], none)
  | .subscribe chs => .ok (st, [], some chs)
  | .unsubscribe _ => .error (.other unsubUnsupportedMsg)
  | .ping m => .ok (st, [pingResponse m], none)
  | .unknown n => .ok (st, [unknownResponse n], none)

/-- Handler::run over a script of already-framed requests: parse each frame
into a command and apply it; any error ends the loop at once (the handler
returns Err and the connection is dropped), and entering subscribe mode
leaves this top-level loop for the subscribe-mode one. -/
def handlerLoop (st : DbState) (now : Nat) :
    List Frame → Except ParseError (DbState × List Frame)
  | [] => .ok (st, [])
  | f :: fs =>
    match fromFrame f with
    | .error e => .error e
    | .ok cmd =>
      match cmd.apply st now with
      | .error e => .error e
      | .ok (st', out, none) =>
        match handlerLoop st' now fs with
        | .ok (st'', out') => .ok (st'', out ++ out')
        | .error e => .error e
      | .ok (st', out, some _) => .ok (st', out)

/-- Response frame of a subscribe confirmation (make_subscribe_frame). -/
def makeSubscribeFrame (channel : List Nat) (numSubs : Nat) : Frame :=
  .array [.bulk (str2b "subscribe"), .bulk channel, .integer numSubs]

/-- Response frame of an unsubscribe confirmation (make_unsubscribe_frame). -/
def makeUnsubscribeFrame (channel : List Nat) (numSubs : Nat) : Frame :=
  .array [.bulk (str2b "unsubscribe"), .bulk channel, .integer numSubs]

/-- Response frame for a published message (make_message_frame). -/
def makeMessageFrame (channel msg : List Nat) : Frame :=
  .array [.bulk (str2b "message"), .bulk channel, .bulk msg]

/-- Remove one channel name (StreamMap::remove; subscribe-mode channel
names are unique). -/
def removeChannel : List (List Nat) → List Nat → List (List Nat)
  | [], _ => []
  | c :: rest, ch => if c = ch then rest else c :: removeChannel rest ch

/-- The per-channel body of the Unsubscribe arm of handle_sub_command:
remove each channel from the subscription map and write an unsubscribe
frame carrying the map size after the removal. -/
def unsubLoop : List (List Nat) → List (List Nat) → List (List Nat) × List Frame
  | [], subs => (subs, [])
  | ch :: chs, subs =>
    let subs' := removeChannel subs ch
    let r := unsubLoop chs subs'
    (r.1, makeUnsubscribeFrame ch subs'.length :: r.2)

/-- handle_sub_command: the reaction of the subscribe-mode loop to one
frame from the client.  Subscribe extends the pending list, Unsubscribe
(expanded to all subscribed channels when empty) removes and confirms, and
every other command is answered by Unknown::apply with the command name;
a parse error propagates and ends the connection.  The result keeps the
pending list, the subscription map, and the frames written, in that
order — an ok result means the connection stays in subscribe mode. -/
def handleSubCommand (frame : Frame) (subscribedTo subscriptions : List (List Nat)) :
    Except ParseError (List (List Nat) × List (List Nat) × List Frame) :=
  match fromFrame frame with
  | .error e => .error e
  | .ok (.subscribe chs) => .ok (subscribedTo ++ chs, subscriptions, [])
  | .ok (.unsubscribe chs) =>
    let chs' := if chs.isEmpty then subscriptions else chs
    let r := unsubLoop chs' subscriptions
    .ok (subscribedTo, r.1, r.2)
  | .ok cmd => .ok (subscribedTo, subscriptions, [unknownResponse cmd.getName])

/-! Basic lemmas about digits, lines and skipping. -/

theorem natDigitsAux_range :
    ∀ (fuel n : Nat), n < fuel → ∀ b ∈ natDigitsAux fuel n, 48 ≤ b ∧ b ≤ 57 := by
  intro fuel
  induction fuel with
  | zero => intro n hn; omega
  | succ fuel ih =>
    intro n hn
    rw [natDigitsAux]
    by_cases h : n < 10
    · simp only [if_pos h, List.mem_singleton]
      rintro b rfl
      omega
    · simp only [if_neg h, List.mem_append, List.mem_singleton]
      rintro b (hb | rfl)
      · have hdiv : n / 10 < fuel := by
          have := Nat.div_lt_self (show 0 < n by omega) (show 1 < 10 by omega)
          omega
        exact ih (n / 10) hdiv b hb
      · have h2 : n % 10 < 10 := Nat.mod_lt _ (by omega)
        omega

theorem natDigits_range (n : Nat) : ∀ b ∈ natDigits n, 48 ≤ b ∧ b ≤ 57 :=
  natDigitsAux_range (n + 1) n (Nat.lt_succ_self n)

theorem natDigits_ne_nil (n : Nat) : natDigits n ≠ [] := by
  rw [natDigits, natDigitsAux]
  by_cases h : n < 10 <;> simp [h]

theorem atoiVal_append_digit (l : List Nat) (d : Nat) :
    atoiVal (l ++ [d]) = atoiVal l * 10 + (d - 48) := by
  simp [atoiVal, List.foldl_append]

theorem natDigitsAux_val :
    ∀ (fuel n : Nat), n < fuel → atoiVal (natDigitsAux fuel n) = n := by
  intro fuel
  induction fuel with
  | zero => intro n hn; omega
  | succ fuel ih =>
    intro n hn
    rw [natDigitsAux]
    by_cases h : n < 10
    · simp only [if_pos h]
      simp [atoiVal]
    · simp only [if_neg h, atoiVal_append_digit]
      have hdiv : n / 10 < fuel := by
        have := Nat.div_lt_self (show 0 < n by omega) (show 1 < 10 by omega)
        omega
      rw [ih (n / 10) hdiv]
      omega

theorem atoiVal_natDigits (n : Nat) : atoiVal (natDigits n) = n :=
  natDigitsAux_val (n + 1) n (Nat.lt_succ_self n)

theorem atoi_natDigits (n : Nat) (h : n < u64size) : atoi (natDigits n) = some n := by
  have hall : (natDigits n).all isDigitByte = true := by
    rw [List.all_eq_true]
    intro b hb
    have := natDigits_range n b hb
    simp [isDigitByte]
    omega
  rw [atoi, if_pos, atoiVal_natDigits]
  refine ⟨natDigits_ne_nil n, hall, ?_⟩
  rw [atoiVal_natDigits]
  exact h

theorem noCRLF_natDigits (n : Nat) : noCRLF (natDigits n) = true := by
  rw [noCRLF, List.all_eq_true]
  intro b hb
  have := natDigits_range n b hb
  simp
  omega

theorem noCRLF_cons (b : Nat) (s : List Nat) :
    noCRLF (b :: s) = true ↔ (b ≠ 13 ∧ b ≠ 10) ∧ noCRLF s = true := by
  simp [noCRLF]

theorem getLine_cons (b : Nat) (l : List Nat) (hb : b ≠ 13) :
    getLine (b :: l) = (getLine l).map fun p => (b :: p.1, p.2) := by
  cases l with
  | nil => simp [getLine]
  | cons c r => simp [getLine, hb]

theorem getLine_crlf (s t : List Nat) (hs : noCRLF s = true) :
    getLine (s ++ 13 :: 10 :: t) = some (s, t) := by
  induction s with
  | nil => simp [getLine]
  | cons b s ih =>
    obtain ⟨⟨hb, -⟩, hs'⟩ := (noCRLF_cons b s).mp hs
    rw [List.cons_append, getLine_cons b _ hb, ih hs']
    rfl

theorem getLine_none_of_noCRLF (s : List Nat) (hs : noCRLF s = true) : getLine s = none := by
  induction s with
  | nil => rfl
  | cons b s ih =>
    obtain ⟨⟨hb, -⟩, hs'⟩ := (noCRLF_cons b s).mp hs
    rw [getLine_cons b _ hb, ih hs']
    rfl

theorem getLine_none_cr (s : List Nat) (hs : noCRLF s = true) :
    getLine (s ++ [13]) = none := by
  induction s with
  | nil => rfl
  | cons b s ih =>
    obtain ⟨⟨hb, -⟩, hs'⟩ := (noCRLF_cons b s).mp hs
    rw [List.cons_append, getLine_cons b _ hb, ih hs']
    rfl

theorem getLine_of_strict_pfx :
    ∀ s : List Nat, noCRLF s = true →
      ∀ p q, p ++ q = s ++ [13, 10] → q ≠ [] → getLine p = none := by
  intro s
  induction s with
  | nil =>
    intro _ p q hpq hq
    cases p with
    | nil => rfl
    | cons a p' =>
      cases p' with
      | nil =>
        simp at hpq
        simp [hpq.1, getLine]
      | cons a' p'' =>
        exfalso
        apply hq
        have hlen := congrArg List.length hpq
        simp only [List.length_cons, List.length_append, List.length_nil] at hlen
        exact List.eq_nil_of_length_eq_zero (by omega)
  | cons b s ih =>
    intro hs p q hpq hq
    obtain ⟨⟨hb, -⟩, hs'⟩ := (noCRLF_cons b s).mp hs
    cases p with
    | nil => rfl
    | cons a p' =>
      rw [List.cons_append, List.cons_append] at hpq
      injection hpq with h1 h2
      subst h1
      rw [getLine_cons a p' hb, ih hs' p' q h2 hq]
      rfl

theorem getDecimal_digits (n : Nat) (h : n < u64size) (rest : List Nat) :
    getDecimal (natDigits n ++ 13 :: 10 :: rest) = .ok (n, rest) := by
  unfold getDecimal
  rw [getLine_crlf _ _ (noCRLF_natDigits n)]
  simp [atoi_natDigits n h]

theorem skipBytes_append (l rest : List Nat) (n : Nat) (h : l.length = n) :
    skipBytes n (l ++ rest) = .ok rest := by
  subst h
  unfold skipBytes
  rw [if_neg (by simp only [List.length_append]; omega)]
  rw [List.drop_left]

/-! Round trip of the codec: parsing what the writer emitted gives the frame
back, and check consumes exactly the same bytes. -/

theorem measureRec {α : Type} (m : α → Nat) {motive : α → Prop}
    (step : ∀ a, (∀ b, m b < m a → motive b) → motive a) : ∀ a, motive a := by
  have H : ∀ n a, m a < n → motive a := by
    intro n
    induction n with
    | zero => intro a ha; omega
    | succ k ih => intro a ha; exact step a fun b hb => ih b (by omega)
  intro a
  exact H (m a + 1) a (Nat.lt_succ_self _)

theorem wfLen_eq (xs : List Frame) : wfLen xs = xs.length := by
  induction xs with
  | nil => rfl
  | cons f fs ih => simp [wfLen, ih]; omega

theorem specLen_eq (xs : List Frame) : specLen xs = xs.length := by
  induction xs with
  | nil => rfl
  | cons f fs ih => simp [specLen, ih]; omega

theorem u64Len_eq (xs : List Frame) : u64Len xs = xs.length := by
  induction xs with
  | nil => rfl
  | cons f fs ih => simp [u64Len, ih]; omega

theorem wfbList_mem {xs : List Frame} (h : wfbList xs = true) : ∀ x ∈ xs, wfb x = true := by
  induction xs with
  | nil => intro x hx; cases hx
  | cons f fs ih =>
    rw [wfbList, Bool.and_eq_true] at h
    intro x hx
    rcases List.mem_cons.mp hx with rfl | hx
    · exact h.1
    · exact ih h.2 x hx

theorem depthList_mem {xs : List Frame} : ∀ x ∈ xs, depth x ≤ depthList xs := by
  induction xs with
  | nil => intro x hx; cases hx
  | cons f fs ih =>
    intro x hx
    rw [depthList]
    rcases List.mem_cons.mp hx with rfl | hx
    · omega
    · have := ih x hx
      omega

theorem writeFrame_of_writeValue {f : Frame} {bx : List Nat} (h : writeValue f = some bx) :
    writeFrame f = some bx := by
  cases f <;> simp_all [writeFrame, writeValue]

theorem sizeOf_mem_lt {xs : List Frame} {x : Frame} (hx : x ∈ xs) :
    sizeOf x < sizeOf (Frame.array xs) := by
  have := List.sizeOf_lt_of_mem hx
  simp only [Frame.array.sizeOf_spec]
  omega

theorem check_line_eq (fuel : Nat) (b : Nat) (rest : List Nat) (hb : b = 43 ∨ b = 45) :
    check (fuel + 1) (b :: rest) =
      (match getLine rest with
       | none => .error .incomplete
       | some (_, r) => .ok r) := by
  rcases hb with rfl | rfl <;> simp [check]

theorem check_int_eq (fuel : Nat) (rest : List Nat) :
    check (fuel + 1) (58 :: rest) =
      (match getDecimal rest with
       | .ok (_, r) => .ok r
       | .error e => .error e) := by
  simp [check]

theorem check_null_eq (fuel : Nat) (tl : List Nat) :
    check (fuel + 1) (36 :: 45 :: tl) = skipBytes 4 (45 :: tl) := by
  simp [check]

theorem check_bulk_eq (fuel d : Nat) (tl : List Nat) (hd : d ≠ 45) :
    check (fuel + 1) (36 :: d :: tl) =
      (match getDecimal (d :: tl) with
       | .ok (len, r) => skipBytes (len + 2) r
       | .error e => .error e) := by
  simp [check, hd]

theorem check_array_eq (fuel : Nat) (rest : List Nat) :
    check (fuel + 1) (42 :: rest) =
      (match getDecimal rest with
       | .ok (n, r) => checkMany (check fuel) n r
       | .error e => .error e) := by
  simp [check]

theorem check_bad_eq (fuel b : Nat) (rest : List Nat)
    (h43 : b ≠ 43) (h45 : b ≠ 45) (h58 : b ≠ 58) (h36 : b ≠ 36) (h42 : b ≠ 42) :
    check (fuel + 1) (b :: rest) = .error (.other (invalidTypeMsg b)) := by
  simp [check, h43, h45, h58, h36, h42]

theorem parse_simple_eq (fuel : Nat) (rest : List Nat) :
    parseFrame (fuel + 1) (43 :: rest) =
      (match getLine rest with
       | none => .error .incomplete
       | some (line, r) =>
         if validUtf8 line then .ok (.simple line, r) else .error (.other protoInvalidFmt)) := by
  simp [parseFrame]

theorem parse_err_eq (fuel : Nat) (rest : List Nat) :
    parseFrame (fuel + 1) (45 :: rest) =
      (match getLine rest with
       | none => .error .incomplete
       | some (line, r) =>
         if validUtf8 line then .ok (.error line, r) else .error (.other protoInvalidFmt)) := by
  simp [parseFrame]

theorem parse_int_eq (fuel : Nat) (rest : List Nat) :
    parseFrame (fuel + 1) (58 :: rest) =
      (match getDecimal rest with
       | .ok (n, r) => .ok (.integer n, r)
       | .error e => .error e) := by
  simp [parseFrame]

theorem parse_null_eq (fuel : Nat) (tl : List Nat) :
    parseFrame (fuel + 1) (36 :: 45 :: tl) =
      (match getLine (45 :: tl) with
       | none => .error .incomplete
       | some (line, r) =>
         if line = [45, 49] then .ok (.null, r) else .error (.other protoInvalidFmt)) := by
  simp [parseFrame]

theorem parse_bulk_eq (fuel d : Nat) (tl : List Nat) (hd : d ≠ 45) :
    parseFrame (fuel + 1) (36 :: d :: tl) =
      (match getDecimal (d :: tl) with
       | .ok (len, r) =>
         if r.length < len + 2 then .error .incomplete
         else .ok (.bulk (r.take len), r.drop (len + 2))
       | .error e => .error e) := by
  simp [parseFrame, hd]

theorem parse_array_eq (fuel : Nat) (rest : List Nat) :
    parseFrame (fuel + 1) (42 :: rest) =
      (match getDecimal rest with
       | .ok (n, r) =>
         (match parseMany (parseFrame fuel) n r with
          | .ok (fs, r2) => .ok (.array fs, r2)
          | .error e => .error e)
       | .error e => .error e) := by
  simp [parseFrame]

/-- Round-trip property of one frame: if the writer emits bytes for it, then
check walks exactly those bytes and parse rebuilds the frame, whatever
follows in the buffer. -/
def RTp (f : Frame) : Prop :=
  wfb f = true → ∀ bs, writeFrame f = some bs → ∀ rest fuel, depth f ≤ fuel →
    check fuel (bs ++ rest) = .ok rest ∧ parseFrame fuel (bs ++ rest) = .ok (f, rest)

theorem rtMany :
    ∀ (xs : List Frame) (body : List Nat), writeList xs = some body →
      (∀ x ∈ xs, RTp x) → wfbList xs = true → ∀ rest fuel, depthList xs ≤ fuel →
      checkMany (check fuel) xs.length (body ++ rest) = .ok rest ∧
      parseMany (parseFrame fuel) xs.length (body ++ rest) = .ok (xs, rest) := by
  intro xs
  induction xs with
  | nil =>
    intro body h _ _ rest fuel _
    simp only [writeList, Option.some.injEq] at h
    subst h
    simp [checkMany, parseMany]
  | cons x xs ih =>
    intro body h hrt hwf rest fuel hfuel
    rw [wfbList, Bool.and_eq_true] at hwf
    rw [depthList] at hfuel
    simp only [writeList] at h
    cases hv : writeValue x with
    | none => rw [hv] at h; cases h
    | some bx =>
      cases hl : writeList xs with
      | none => rw [hv, hl] at h; cases h
      | some body' =>
        rw [hv, hl] at h
        simp only [Option.some.injEq] at h
        subst h
        have hx := hrt x (List.mem_cons_self x xs) hwf.1 bx (writeFrame_of_writeValue hv)
          (body' ++ rest) fuel (by omega)
        have hxs := ih body' hl (fun y hy => hrt y (List.mem_cons_of_mem x hy)) hwf.2
          rest fuel (by omega)
        rw [List.append_assoc]
        constructor
        · rw [List.length_cons, checkMany, hx.1]
          exact hxs.1
        · simp only [List.length_cons, parseMany, hx.2, hxs.2]

theorem rtAll : ∀ f, RTp f := by
  refine measureRec (fun g : Frame => sizeOf g) ?_
  intro f ih
  unfold RTp
  intro hwf bs hbs rest fuel hfuel
  cases f with
  | null =>
    simp only [writeFrame, writeValue, Option.some.injEq] at hbs
    subst hbs
    obtain ⟨fuel', rfl⟩ : ∃ k, fuel = k + 1 := ⟨fuel - 1, by simp [depth] at hfuel; omega⟩
    constructor
    · show check (fuel' + 1) (36 :: 45 :: ([49, 13, 10] ++ rest)) = .ok rest
      rw [check_null_eq]
      exact skipBytes_append [45, 49, 13, 10] rest 4 rfl
    · show parseFrame (fuel' + 1) (36 :: 45 :: ([49, 13, 10] ++ rest)) = .ok (.null, rest)
      rw [parse_null_eq]
      rw [show (45 :: ([49, 13, 10] ++ rest)) = [45, 49] ++ 13 :: 10 :: rest from rfl]
      rw [getLine_crlf [45, 49] rest (by rfl)]
      simp
  | simple s =>
    rw [wfb, Bool.and_eq_true] at hwf
    simp only [writeFrame, writeValue, Option.some.injEq] at hbs
    subst hbs
    obtain ⟨fuel', rfl⟩ : ∃ k, fuel = k + 1 := ⟨fuel - 1, by simp [depth] at hfuel; omega⟩
    have hshape : (43 :: (s ++ crlf)) ++ rest = 43 :: (s ++ 13 :: 10 :: rest) := by
      simp [crlf]
    rw [hshape]
    constructor
    · rw [check_line_eq _ _ _ (Or.inl rfl), getLine_crlf s rest hwf.1]
    · rw [parse_simple_eq, getLine_crlf s rest hwf.1]
      simp [hwf.2]
  | error s =>
    rw [wfb, Bool.and_eq_true] at hwf
    simp only [writeFrame, writeValue, Option.some.injEq] at hbs
    subst hbs
    obtain ⟨fuel', rfl⟩ : ∃ k, fuel = k + 1 := ⟨fuel - 1, by simp [depth] at hfuel; omega⟩
    have hshape : (45 :: (s ++ crlf)) ++ rest = 45 :: (s ++ 13 :: 10 :: rest) := by
      simp [crlf]
    rw [hshape]
    constructor
    · rw [check_line_eq _ _ _ (Or.inr rfl), getLine_crlf s rest hwf.1]
    · rw [parse_err_eq, getLine_crlf s rest hwf.1]
      simp [hwf.2]
  | integer n =>
    have hn : n < u64size := by simpa [wfb] using hwf
    simp only [writeFrame, writeValue, writeDec, Option.some.injEq] at hbs
    subst hbs
    obtain ⟨fuel', rfl⟩ : ∃ k, fuel = k + 1 := ⟨fuel - 1, by simp [depth] at hfuel; omega⟩
    have hshape : (58 :: (natDigits n ++ crlf)) ++ rest = 58 :: (natDigits n ++ 13 :: 10 :: rest) := by
      simp [crlf]
    rw [hshape]
    constructor
    · rw [check_int_eq, getDecimal_digits n hn rest]
    · rw [parse_int_eq, getDecimal_digits n hn rest]
  | bulk b =>
    have hlen : b.length < u64size := by simpa [wfb] using hwf
    have hmod : b.length % u64size = b.length := Nat.mod_eq_of_lt hlen
    simp only [writeFrame, writeValue, writeDec, hmod, Option.some.injEq] at hbs
    subst hbs
    obtain ⟨fuel', rfl⟩ : ∃ k, fuel = k + 1 := ⟨fuel - 1, by simp [depth] at hfuel; omega⟩
    cases hnd : natDigits b.length with
    | nil => exact absurd hnd (natDigits_ne_nil _)
    | cons d ds =>
      have hd45 : d ≠ 45 := by
        have := natDigits_range b.length d (by rw [hnd]; exact List.mem_cons_self _ _)
        omega
      simp only [crlf, List.append_assoc, List.cons_append, List.nil_append]
      have hdec : getDecimal (d :: (ds ++ 13 :: 10 :: (b ++ 13 :: 10 :: rest))) =
          .ok (b.length, b ++ 13 :: 10 :: rest) := by
        rw [show d :: (ds ++ 13 :: 10 :: (b ++ 13 :: 10 :: rest)) =
          (d :: ds) ++ 13 :: 10 :: (b ++ 13 :: 10 :: rest) from rfl, ← hnd]
        exact getDecimal_digits b.length hlen _
      have htl : b ++ 13 :: 10 :: rest = (b ++ [13, 10]) ++ rest := by simp
      constructor
      · rw [check_bulk_eq _ _ _ hd45, hdec]
        rw [htl]
        exact skipBytes_append _ _ _ (by simp)
      · rw [parse_bulk_eq _ _ _ hd45, hdec]
        have h1 : ¬ (b ++ 13 :: 10 :: rest).length < b.length + 2 := by
          simp only [List.length_append, List.length_cons]
          omega
        have h2 : (b ++ 13 :: 10 :: rest).take b.length = b := List.take_left b _
        have h3 : (b ++ 13 :: 10 :: rest).drop (b.length + 2) = rest := by
          have e1 : b ++ 13 :: 10 :: rest = (b ++ [13, 10]) ++ rest := by simp
          have e2 : (b ++ [13, 10]).length = b.length + 2 := by simp
          rw [e1, ← e2, List.drop_left]
        simp [h1, h2, h3]
  | array xs =>
    rw [wfb, Bool.and_eq_true] at hwf
    have hxslen : xs.length < u64size := by
      have := hwf.1
      simp only [decide_eq_true_eq, wfLen_eq] at this
      exact this
    have hmod : xs.length % u64size = xs.length := Nat.mod_eq_of_lt hxslen
    simp only [writeFrame] at hbs
    cases hl : writeList xs with
    | none => rw [hl] at hbs; cases hbs
    | some body =>
      rw [hl] at hbs
      simp only [Option.map_some', Option.some.injEq, writeDec, hmod] at hbs
      subst hbs
      have hdepth : depthList xs + 1 ≤ fuel := by
        simpa [depth] using hfuel
      obtain ⟨fuel', rfl⟩ : ∃ k, fuel = k + 1 := ⟨fuel - 1, by omega⟩
      have hmany := rtMany xs body hl
        (fun x hx => ih x (sizeOf_mem_lt hx)) hwf.2 rest fuel' (by omega)
      have hshape : (42 :: (natDigits xs.length ++ crlf ++ body)) ++ rest =
          42 :: (natDigits xs.length ++ 13 :: 10 :: (body ++ rest)) := by
        simp [crlf]
      rw [hshape]
      constructor
      · rw [check_array_eq, getDecimal_digits xs.length hxslen _]
        exact hmany.1
      · rw [parse_array_eq, getDecimal_digits xs.length hxslen _]
        simp only [hmany.2]


/-! Prefix stability: on every strict prefix of a valid encoding, check
reports Incomplete. -/

theorem check_nil_eq (fuel : Nat) : check (fuel + 1) [] = .error .incomplete := by
  simp [check]

theorem checkMany_error {chk : List Nat → Except FrameError (List Nat)} {input : List Nat}
    {e : FrameError} (n : Nat) (h : chk input = .error e) :
    checkMany chk (n + 1) input = .error e := by
  rw [checkMany, h]

theorem getDecimal_incomplete {input : List Nat} (h : getLine input = none) :
    getDecimal input = .error .incomplete := by
  rw [getDecimal, h]

theorem depth_pos (f : Frame) : 1 ≤ depth f := by
  cases f <;> simp [depth]

theorem writeValue_ne_nil {f : Frame} {bx : List Nat} (h : writeValue f = some bx) :
    bx ≠ [] := by
  cases f <;> simp [writeValue] at h
  all_goals
    rw [← h]
    simp

theorem noCRLF_of_append_left {a b : List Nat} (h : noCRLF (a ++ b) = true) :
    noCRLF a = true := by
  simp only [noCRLF, List.all_append, Bool.and_eq_true] at h
  exact h.1

/-- Prefix property of one frame: check answers Incomplete on every strict
prefix of its encoding. -/
def PFXp (f : Frame) : Prop :=
  wfb f = true → ∀ bs, writeFrame f = some bs →
    ∀ p q, p ++ q = bs → q ≠ [] → ∀ fuel, depth f ≤ fuel →
      check fuel p = .error .incomplete

theorem pfxMany :
    ∀ (xs : List Frame) (body : List Nat), writeList xs = some body →
      (∀ x ∈ xs, PFXp x) → wfbList xs = true →
      ∀ c q, c ++ q = body → q ≠ [] → ∀ fuel, depthList xs ≤ fuel →
        checkMany (check fuel) xs.length c = .error .incomplete := by
  intro xs
  induction xs with
  | nil =>
    intro body h _ _ c q hcq hq _ _
    simp only [writeList, Option.some.injEq] at h
    rw [← h] at hcq
    exact absurd (List.append_eq_nil.mp hcq).2 hq
  | cons x xs ih =>
    intro body h hpfx hwf c q hcq hq fuel hfuel
    rw [wfbList, Bool.and_eq_true] at hwf
    rw [depthList] at hfuel
    simp only [writeList] at h
    cases hv : writeValue x with
    | none => rw [hv] at h; cases h
    | some bx =>
      cases hl : writeList xs with
      | none => rw [hv, hl] at h; cases h
      | some body' =>
        rw [hv, hl] at h
        simp only [Option.some.injEq] at h
        rw [← h] at hcq
        obtain ⟨fuel', rfl⟩ : ∃ k, fuel = k + 1 :=
          ⟨fuel - 1, by have := depth_pos x; omega⟩
        rcases List.append_eq_append_iff.mp hcq with ⟨a', ha1, ha2⟩ | ⟨c', hc1, hc2⟩
        · by_cases ha' : a' = []
          · -- the cut falls exactly at the end of the first element
            subst ha'
            rw [List.append_nil] at ha1
            rw [List.nil_append] at ha2
            cases xs with
            | nil =>
              exfalso
              simp only [writeList, Option.some.injEq] at hl
              rw [← hl] at ha2
              rw [ha2] at hq
              exact hq rfl
            | cons y ys =>
              have hcheck := rtAll x hwf.1 bx (writeFrame_of_writeValue hv) []
                (fuel' + 1) (by omega)
              rw [List.append_nil] at hcheck
              rw [ha1] at hcheck
              rw [List.length_cons, checkMany, hcheck.1, List.length_cons]
              exact checkMany_error _ (check_nil_eq fuel')
          · -- the cut falls strictly inside the first element
            have := hpfx x (List.mem_cons_self x xs) hwf.1 bx
              (writeFrame_of_writeValue hv) c a' ha1.symm ha' (fuel' + 1) (by omega)
            rw [List.length_cons]
            exact checkMany_error _ this
        · -- the first element is complete; recurse into the remaining ones
          rw [hc1]
          have hcheck := rtAll x hwf.1 bx (writeFrame_of_writeValue hv) c'
            (fuel' + 1) (by omega)
          rw [List.length_cons, checkMany, hcheck.1]
          exact ih body' hl (fun y hy => hpfx y (List.mem_cons_of_mem x hy)) hwf.2
            c' q hc2.symm hq (fuel' + 1) (by omega)

theorem length_pos_of_ne_nil {q : List Nat} (hq : q ≠ []) : 1 ≤ q.length := by
  cases q with
  | nil => exact absurd rfl hq
  | cons _ _ => simp

theorem pfxAll : ∀ f, PFXp f := by
  refine measureRec (fun g : Frame => sizeOf g) ?_
  intro f ih
  unfold PFXp
  intro hwf bs hbs p q hpq hq fuel hfuel
  obtain ⟨fuel', rfl⟩ : ∃ k, fuel = k + 1 :=
    ⟨fuel - 1, by have := depth_pos f; omega⟩
  cases p with
  | nil => exact check_nil_eq fuel'
  | cons hb p' =>
    cases f with
    | null =>
      simp only [writeFrame, writeValue, Option.some.injEq] at hbs
      rw [← hbs] at hpq
      have hb36 : hb = 36 := by
        have := congrArg List.head? hpq
        simpa using this
      subst hb36
      have hp' : p' ++ q = [45, 49, 13, 10] := by
        have := congrArg List.tail hpq
        simpa using this
      cases p' with
      | nil => simp [check]
      | cons c p'' =>
        have hc : c = 45 := by
          have := congrArg List.head? hp'
          simpa using this
        subst hc
        have hp'' : p'' ++ q = [49, 13, 10] := by
          have := congrArg List.tail hp'
          simpa using this
        have hlen2 : (45 :: p'').length < 4 := by
          have hl2 := congrArg List.length hp''
          have hql := length_pos_of_ne_nil hq
          simp only [List.length_append, List.length_cons, List.length_nil] at hl2 ⊢
          omega
        rw [check_null_eq]
        simp only [skipBytes]
        rw [if_pos hlen2]
    | simple st =>
      rw [wfb, Bool.and_eq_true] at hwf
      simp only [writeFrame, writeValue, Option.some.injEq] at hbs
      rw [← hbs] at hpq
      have hb43 : hb = 43 := by
        have := congrArg List.head? hpq
        simpa using this
      subst hb43
      have hp' : p' ++ q = st ++ [13, 10] := by
        have := congrArg List.tail hpq
        simpa [crlf] using this
      rw [check_line_eq _ _ _ (Or.inl rfl),
        getLine_of_strict_pfx st hwf.1 p' q hp' hq]
    | error st =>
      rw [wfb, Bool.and_eq_true] at hwf
      simp only [writeFrame, writeValue, Option.some.injEq] at hbs
      rw [← hbs] at hpq
      have hb45 : hb = 45 := by
        have := congrArg List.head? hpq
        simpa using this
      subst hb45
      have hp' : p' ++ q = st ++ [13, 10] := by
        have := congrArg List.tail hpq
        simpa [crlf] using this
      rw [check_line_eq _ _ _ (Or.inr rfl),
        getLine_of_strict_pfx st hwf.1 p' q hp' hq]
    | integer n =>
      simp only [writeFrame, writeValue, writeDec, Option.some.injEq] at hbs
      rw [← hbs] at hpq
      have hb58 : hb = 58 := by
        have := congrArg List.head? hpq
        simpa using this
      subst hb58
      have hp' : p' ++ q = natDigits n ++ [13, 10] := by
        have := congrArg List.tail hpq
        simpa [crlf] using this
      rw [check_int_eq, getDecimal_incomplete
        (getLine_of_strict_pfx (natDigits n) (noCRLF_natDigits n) p' q hp' hq)]
    | bulk b =>
      have hlen : b.length < u64size := by simpa [wfb] using hwf
      have hmod : b.length % u64size = b.length := Nat.mod_eq_of_lt hlen
      simp only [writeFrame, writeValue, writeDec, hmod, Option.some.injEq] at hbs
      rw [← hbs] at hpq
      have hb36 : hb = 36 := by
        have := congrArg List.head? hpq
        simpa using this
      subst hb36
      have hp' : p' ++ q = natDigits b.length ++ (13 :: 10 :: (b ++ [13, 10])) := by
        have := congrArg List.tail hpq
        simpa [crlf] using this
      cases p' with
      | nil => simp [check]
      | cons d p'' =>
        have hd45 : d ≠ 45 := by
          cases hnd : natDigits b.length with
          | nil => exact absurd hnd (natDigits_ne_nil _)
          | cons e es =>
            have hde : d = e := by
              rw [hnd] at hp'
              have := congrArg List.head? hp'
              simpa using this
            subst hde
            have := natDigits_range b.length d (by rw [hnd]; exact List.mem_cons_self _ _)
            omega
        rw [check_bulk_eq _ _ _ hd45]
        rcases List.append_eq_append_iff.mp hp' with ⟨a', ha1, ha2⟩ | ⟨c', hc1, hc2⟩
        · -- the cut falls inside the decimal digits
          have hnc : noCRLF (d :: p'') = true := by
            have h0 := noCRLF_natDigits b.length
            rw [ha1] at h0
            exact noCRLF_of_append_left h0
          rw [getDecimal_incomplete (getLine_none_of_noCRLF _ hnc)]
        · -- the whole decimal line or part of the terminator is present
          cases c' with
          | nil =>
            rw [List.append_nil] at hc1
            have hnc : noCRLF (d :: p'') = true := by
              rw [hc1]
              exact noCRLF_natDigits b.length
            rw [getDecimal_incomplete (getLine_none_of_noCRLF _ hnc)]
          | cons e1 c2 =>
            have he1 : 13 = e1 := by
              have := congrArg List.head? hc2
              simpa using this
            subst he1
            have hc2' : 10 :: (b ++ [13, 10]) = c2 ++ q := by
              have := congrArg List.tail hc2
              simpa using this
            cases c2 with
            | nil =>
              rw [hc1, getDecimal_incomplete (getLine_none_cr _ (noCRLF_natDigits b.length))]
            | cons e2 c3 =>
              have he2 : 10 = e2 := by
                have := congrArg List.head? hc2'
                simpa using this
              subst he2
              have hc3 : c3 ++ q = b ++ [13, 10] := by
                have := congrArg List.tail hc2'
                simpa using this.symm
              have hc1' : d :: p'' = natDigits b.length ++ (13 :: 10 :: c3) := by
                simpa using hc1
              rw [hc1', getDecimal_digits b.length hlen c3]
              simp only [skipBytes]
              rw [if_pos]
              have hl3 := congrArg List.length hc3
              have hql := length_pos_of_ne_nil hq
              simp only [List.length_append, List.length_cons, List.length_nil] at hl3 ⊢
              omega
    | array xs =>
      rw [wfb, Bool.and_eq_true] at hwf
      have hxslen : xs.length < u64size := by
        have := hwf.1
        simp only [decide_eq_true_eq, wfLen_eq] at this
        exact this
      have hmod : xs.length % u64size = xs.length := Nat.mod_eq_of_lt hxslen
      simp only [writeFrame] at hbs
      cases hl : writeList xs with
      | none => rw [hl] at hbs; cases hbs
      | some body =>
        rw [hl] at hbs
        simp only [Option.map_some', Option.some.injEq, writeDec, hmod] at hbs
        rw [← hbs] at hpq
        have hb42 : hb = 42 := by
          have := congrArg List.head? hpq
          simpa using this
        subst hb42
        have hp' : p' ++ q = natDigits xs.length ++ (13 :: 10 :: body) := by
          have := congrArg List.tail hpq
          simpa [crlf] using this
        have hdepth : depthList xs + 1 ≤ fuel' + 1 := by
          simpa [depth] using hfuel
        rw [check_array_eq]
        rcases List.append_eq_append_iff.mp hp' with ⟨a', ha1, ha2⟩ | ⟨c', hc1, hc2⟩
        · -- the cut falls inside the decimal digits
          have hnc : noCRLF p' = true :=
            noCRLF_of_append_left (ha1 ▸ noCRLF_natDigits xs.length)
          rw [getDecimal_incomplete (getLine_none_of_noCRLF _ hnc)]
        · cases c' with
          | nil =>
            rw [List.append_nil] at hc1
            have hnc : noCRLF p' = true := by
              rw [hc1]
              exact noCRLF_natDigits xs.length
            rw [getDecimal_incomplete (getLine_none_of_noCRLF _ hnc)]
          | cons e1 c2 =>
            have he1 : 13 = e1 := by
              have := congrArg List.head? hc2
              simpa using this
            subst he1
            have hc2' : 10 :: body = c2 ++ q := by
              have := congrArg List.tail hc2
              simpa using this
            cases c2 with
            | nil =>
              rw [hc1, getDecimal_incomplete (getLine_none_cr _ (noCRLF_natDigits xs.length))]
            | cons e2 c3 =>
              have he2 : 10 = e2 := by
                have := congrArg List.head? hc2'
                simpa using this
              subst he2
              have hc3 : c3 ++ q = body := by
                have := congrArg List.tail hc2'
                simpa using this.symm
              have hc1' : p' = natDigits xs.length ++ (13 :: 10 :: c3) := by
                simpa using hc1
              rw [hc1', getDecimal_digits xs.length hxslen c3]
              exact pfxMany xs body hl (fun y hy => ih y (sizeOf_mem_lt hy)) hwf.2
                c3 q hc3 hq fuel' (by omega)

/-! Ordered-set and association-list lemmas for the store invariant. -/

theorem bytesLt_irrefl (a : List Nat) : bytesLt a a = false := by
  induction a with
  | nil => rfl
  | cons x xs ih => simp [bytesLt, ih]

theorem bytesLt_trans : ∀ {a b c : List Nat},
    bytesLt a b = true → bytesLt b c = true → bytesLt a c = true := by
  intro a
  induction a with
  | nil =>
    intro b c hab hbc
    cases b with
    | nil => exact absurd hab (by simp [bytesLt])
    | cons y ys =>
      cases c with
      | nil => exact absurd hbc (by simp [bytesLt])
      | cons z zs => simp [bytesLt]
  | cons x xs ih =>
    intro b c hab hbc
    cases b with
    | nil => exact absurd hab (by simp [bytesLt])
    | cons y ys =>
      cases c with
      | nil => exact absurd hbc (by simp [bytesLt])
      | cons z zs =>
        simp only [bytesLt] at hab hbc ⊢
        by_cases hxy : x < y
        · by_cases hyz : y < z
          · rw [if_pos (by omega)]
          · rw [if_neg (by omega)] at hbc
            by_cases hzy : z < y
            · rw [if_pos hzy] at hbc
              cases hbc
            · rw [if_neg hzy] at hbc
              rw [if_pos (by omega)]
        · rw [if_neg hxy] at hab
          by_cases hyx : y < x
          · rw [if_pos hyx] at hab
            cases hab
          · rw [if_neg hyx] at hab
            by_cases hyz : y < z
            · rw [if_pos (by omega)]
            · rw [if_neg hyz] at hbc
              by_cases hzy : z < y
              · rw [if_pos hzy] at hbc
                cases hbc
              · rw [if_neg hzy] at hbc
                rw [if_neg (by omega), if_neg (by omega)]
                exact ih hab hbc

theorem bytesLt_total : ∀ a b : List Nat,
    a = b ∨ bytesLt a b = true ∨ bytesLt b a = true := by
  intro a
  induction a with
  | nil =>
    intro b
    cases b with
    | nil => exact Or.inl rfl
    | cons y ys => exact Or.inr (Or.inl (by simp [bytesLt]))
  | cons x xs ih =>
    intro b
    cases b with
    | nil => exact Or.inr (Or.inr (by simp [bytesLt]))
    | cons y ys =>
      by_cases hxy : x < y
      · exact Or.inr (Or.inl (by simp [bytesLt, hxy]))
      · by_cases hyx : y < x
        · exact Or.inr (Or.inr (by simp [bytesLt, hyx]))
        · have hxey : x = y := by omega
          subst hxey
          rcases ih ys with rfl | h | h
          · exact Or.inl rfl
          · exact Or.inr (Or.inl (by simp [bytesLt, h]))
          · exact Or.inr (Or.inr (by simp [bytesLt, h]))

theorem expLt_irrefl (p : Nat × List Nat) : expLt p p = false := by
  simp [expLt, bytesLt_irrefl]

theorem expLt_trans {p q r : Nat × List Nat}
    (hpq : expLt p q = true) (hqr : expLt q r = true) : expLt p r = true := by
  simp only [expLt] at hpq hqr ⊢
  by_cases h1 : p.1 < q.1
  · by_cases h2 : q.1 < r.1
    · rw [if_pos (by omega)]
    · rw [if_neg h2] at hqr
      by_cases h3 : r.1 < q.1
      · rw [if_pos h3] at hqr
        cases hqr
      · rw [if_neg h3] at hqr
        rw [if_pos (by omega)]
  · rw [if_neg h1] at hpq
    by_cases h4 : q.1 < p.1
    · rw [if_pos h4] at hpq
      cases hpq
    · rw [if_neg h4] at hpq
      by_cases h2 : q.1 < r.1
      · rw [if_pos (by omega)]
      · rw [if_neg h2] at hqr
        by_cases h3 : r.1 < q.1
        · rw [if_pos h3] at hqr
          cases hqr
        · rw [if_neg h3] at hqr
          rw [if_neg (by omega), if_neg (by omega)]
          exact bytesLt_trans hpq hqr

theorem expLt_total (p q : Nat × List Nat) :
    p = q ∨ expLt p q = true ∨ expLt q p = true := by
  by_cases h1 : p.1 < q.1
  · exact Or.inr (Or.inl (by simp [expLt, h1]))
  · by_cases h2 : q.1 < p.1
    · exact Or.inr (Or.inr (by simp [expLt, h2]))
    · have he : p.1 = q.1 := by omega
      rcases bytesLt_total p.2 q.2 with he2 | h | h
      · exact Or.inl (Prod.ext he he2)
      · exact Or.inr (Or.inl (by simp [expLt, he, h]))
      · exact Or.inr (Or.inr (by simp [expLt, he.symm, h]))

/-- Head bound used by the sortedness predicate. -/
def ltHead (p : Nat × List Nat) : List (Nat × List Nat) → Bool
  | [] => true
  | q :: _ => expLt p q

/-- Sortedness of the expirations list in the strict order expLt (the
BTreeSet iteration order). -/
def expSortedB : List (Nat × List Nat) → Bool
  | [] => true
  | p :: l => ltHead p l && expSortedB l

theorem expSortedB_cons {p : Nat × List Nat} {l : List (Nat × List Nat)}
    (h : expSortedB (p :: l) = true) : ltHead p l = true ∧ expSortedB l = true := by
  simpa [expSortedB, Bool.and_eq_true] using h

theorem sorted_head_lt {p : Nat × List Nat} {l : List (Nat × List Nat)}
    (h : expSortedB (p :: l) = true) : ∀ q ∈ l, expLt p q = true := by
  induction l generalizing p with
  | nil => intro q hq; cases hq
  | cons r l ih =>
    obtain ⟨h1, h2⟩ := expSortedB_cons h
    intro q hq
    rcases List.mem_cons.mp hq with rfl | hq
    · simpa [ltHead] using h1
    · have hr : expLt p r = true := by simpa [ltHead] using h1
      exact expLt_trans hr (ih h2 q hq)

theorem mem_btInsert {l : List (Nat × List Nat)} {p x : Nat × List Nat} :
    x ∈ btInsert l p ↔ x = p ∨ x ∈ l := by
  induction l with
  | nil => simp [btInsert]
  | cons q rest ih =>
    by_cases h1 : expLt p q = true
    · simp only [btInsert, if_pos h1]
      constructor
      · intro hx
        rcases List.mem_cons.mp hx with rfl | hx
        · exact Or.inl rfl
        · exact Or.inr hx
      · intro hx
        rcases hx with rfl | hx
        · exact List.mem_cons_self _ _
        · exact List.mem_cons_of_mem _ hx
    · simp only [btInsert, if_neg h1]
      by_cases h2 : p = q
      · subst h2
        rw [if_pos rfl]
        constructor
        · exact Or.inr
        · intro hx
          rcases hx with rfl | hx
          · exact List.mem_cons_self _ _
          · exact hx
      · rw [if_neg h2]
        constructor
        · intro hx
          rcases List.mem_cons.mp hx with rfl | hx
          · exact Or.inr (List.mem_cons_self _ _)
          · rcases ih.mp hx with rfl | hx
            · exact Or.inl rfl
            · exact Or.inr (List.mem_cons_of_mem _ hx)
        · intro hx
          rcases hx with rfl | hx
          · exact List.mem_cons_of_mem _ (ih.mpr (Or.inl rfl))
          · rcases List.mem_cons.mp hx with rfl | hx
            · exact List.mem_cons_self _ _
            · exact List.mem_cons_of_mem _ (ih.mpr (Or.inr hx))

theorem ltHead_of_all {p : Nat × List Nat} {l : List (Nat × List Nat)}
    (h : ∀ q ∈ l, expLt p q = true) : ltHead p l = true := by
  cases l with
  | nil => rfl
  | cons q rest => exact h q (List.mem_cons_self _ _)

theorem btInsert_sorted {l : List (Nat × List Nat)} {p : Nat × List Nat}
    (h : expSortedB l = true) : expSortedB (btInsert l p) = true := by
  induction l with
  | nil => simp [btInsert, expSortedB, ltHead]
  | cons q rest ih =>
    obtain ⟨h1, h2⟩ := expSortedB_cons h
    by_cases hp : expLt p q = true
    · simp only [btInsert, if_pos hp]
      simp only [expSortedB, ltHead, Bool.and_eq_true]
      exact ⟨hp, h1, h2⟩
    · simp only [btInsert, if_neg hp]
      by_cases he : p = q
      · rw [if_pos he]
        exact h
      · rw [if_neg he]
        have hq : expLt q p = true := by
          rcases expLt_total p q with rfl | h' | h'
          · exact absurd rfl he
          · exact absurd h' hp
          · exact h'
        simp only [expSortedB, Bool.and_eq_true]
        refine ⟨?_, ih h2⟩
        apply ltHead_of_all
        intro r hr
        rcases mem_btInsert.mp hr with rfl | hr
        · exact hq
        · exact sorted_head_lt h r hr

theorem btRemove_subset {l : List (Nat × List Nat)} {p x : Nat × List Nat}
    (hx : x ∈ btRemove l p) : x ∈ l := by
  induction l with
  | nil => cases hx
  | cons q rest ih =>
    by_cases h : p = q
    · rw [btRemove, if_pos h] at hx
      exact List.mem_cons_of_mem _ hx
    · rw [btRemove, if_neg h] at hx
      rcases List.mem_cons.mp hx with rfl | hx
      · exact List.mem_cons_self _ _
      · exact List.mem_cons_of_mem _ (ih hx)

theorem mem_btRemove_of_ne {l : List (Nat × List Nat)} {p x : Nat × List Nat}
    (hx : x ∈ l) (hne : x ≠ p) : x ∈ btRemove l p := by
  induction l with
  | nil => cases hx
  | cons q rest ih =>
    by_cases h : p = q
    · subst h
      rw [btRemove, if_pos rfl]
      rcases List.mem_cons.mp hx with rfl | hx
      · exact absurd rfl hne
      · exact hx
    · rw [btRemove, if_neg h]
      rcases List.mem_cons.mp hx with rfl | hx
      · exact List.mem_cons_self _ _
      · exact List.mem_cons_of_mem _ (ih hx)

theorem not_mem_btRemove_self {l : List (Nat × List Nat)} {p : Nat × List Nat}
    (h : expSortedB l = true) : p ∉ btRemove l p := by
  induction l with
  | nil => simp [btRemove]
  | cons q rest ih =>
    obtain ⟨-, h2⟩ := expSortedB_cons h
    by_cases he : p = q
    · subst he
      rw [btRemove, if_pos rfl]
      intro hmem
      have := sorted_head_lt h p hmem
      rw [expLt_irrefl] at this
      cases this
    · rw [btRemove, if_neg he]
      intro hmem
      rcases List.mem_cons.mp hmem with rfl | hmem
      · exact he rfl
      · exact ih h2 hmem

theorem btRemove_sorted {l : List (Nat × List Nat)} {p : Nat × List Nat}
    (h : expSortedB l = true) : expSortedB (btRemove l p) = true := by
  induction l with
  | nil => exact h
  | cons q rest ih =>
    obtain ⟨-, h2⟩ := expSortedB_cons h
    by_cases he : p = q
    · rw [btRemove, if_pos he]
      exact h2
    · rw [btRemove, if_neg he]
      simp only [expSortedB, Bool.and_eq_true]
      refine ⟨?_, ih h2⟩
      apply ltHead_of_all
      intro r hr
      exact sorted_head_lt h r (btRemove_subset hr)

theorem alookup_ainsert_self {α : Type} (l : List (List Nat × α)) (k : List Nat) (v : α) :
    alookup (ainsert l k v).2 k = some v := by
  induction l with
  | nil => simp [ainsert, alookup]
  | cons p rest ih =>
    by_cases h : p.1 = k
    · simp [ainsert, h, alookup]
    · simp only [ainsert]
      rw [if_neg h]
      simp only [alookup]
      rw [if_neg h]
      exact ih

theorem alookup_ainsert_ne {α : Type} (l : List (List Nat × α)) (k k2 : List Nat) (v : α)
    (hne : k2 ≠ k) : alookup (ainsert l k2 v).2 k = alookup l k := by
  induction l with
  | nil => simp [ainsert, alookup, hne]
  | cons p rest ih =>
    by_cases h : p.1 = k2
    · simp only [ainsert]
      rw [if_pos h]
      simp only [alookup]
      rw [if_neg hne, if_neg (h ▸ hne)]
    · simp only [ainsert]
      rw [if_neg h]
      simp only [alookup]
      by_cases h2 : p.1 = k
      · rw [if_pos h2, if_pos h2]
      · rw [if_neg h2, if_neg h2]
        exact ih

theorem ainsert_fst {α : Type} (l : List (List Nat × α)) (k : List Nat) (v : α) :
    (ainsert l k v).1 = alookup l k := by
  induction l with
  | nil => simp [ainsert, alookup]
  | cons p rest ih =>
    by_cases h : p.1 = k
    · simp [ainsert, alookup, h]
    · simp only [ainsert, alookup]
      rw [if_neg h, if_neg h]
      simpa using ih


theorem mem_ainsert {α : Type} {l : List (List Nat × α)} {k : List Nat} {v : α}
    {x : List Nat × α} (hx : x ∈ (ainsert l k v).2) : x = (k, v) ∨ x ∈ l := by
  induction l with
  | nil => simpa [ainsert] using hx
  | cons p rest ih =>
    by_cases h : p.1 = k
    · simp only [ainsert, if_pos h] at hx
      rcases List.mem_cons.mp hx with rfl | hx
      · exact Or.inl rfl
      · exact Or.inr (List.mem_cons_of_mem _ hx)
    · simp only [ainsert, if_neg h] at hx
      rcases List.mem_cons.mp hx with rfl | hx
      · exact Or.inr (List.mem_cons_self _ _)
      · rcases ih hx with h1 | h1
        · exact Or.inl h1
        · exact Or.inr (List.mem_cons_of_mem _ h1)

theorem mem_ainsert_of_mem_ne {α : Type} {l : List (List Nat × α)} {k : List Nat} {v : α}
    {x : List Nat × α} (hx : x ∈ l) (hne : x.1 ≠ k) : x ∈ (ainsert l k v).2 := by
  induction l with
  | nil => cases hx
  | cons p rest ih =>
    by_cases h : p.1 = k
    · simp only [ainsert, if_pos h]
      rcases List.mem_cons.mp hx with rfl | hx
      · exact absurd h hne
      · exact List.mem_cons_of_mem _ hx
    · simp only [ainsert, if_neg h]
      rcases List.mem_cons.mp hx with rfl | hx
      · exact List.mem_cons_self _ _
      · exact List.mem_cons_of_mem _ (ih hx)

theorem self_mem_ainsert {α : Type} (l : List (List Nat × α)) (k : List Nat) (v : α) :
    (k, v) ∈ (ainsert l k v).2 := by
  induction l with
  | nil => simp [ainsert]
  | cons p rest ih =>
    by_cases h : p.1 = k
    · simp [ainsert, if_pos h]
    · simp only [ainsert, if_neg h]
      exact List.mem_cons_of_mem _ ih

theorem alookup_mem {α : Type} {l : List (List Nat × α)} {k : List Nat} {v : α}
    (h : alookup l k = some v) : (k, v) ∈ l := by
  induction l with
  | nil => cases h
  | cons p rest ih =>
    by_cases hp : p.1 = k
    · rw [alookup, if_pos hp] at h
      simp only [Option.some.injEq] at h
      have hpkv : p = (k, v) := by
        obtain ⟨a, b⟩ := p
        simp only at hp h
        subst hp
        subst h
        rfl
      rw [hpkv]
      exact List.mem_cons_self _ _
    · rw [alookup, if_neg hp] at h
      exact List.mem_cons_of_mem _ (ih h)

theorem alookup_none_iff {α : Type} {l : List (List Nat × α)} {k : List Nat} :
    alookup l k = none ↔ k ∉ l.map Prod.fst := by
  induction l with
  | nil => simp [alookup]
  | cons p rest ih =>
    by_cases hp : p.1 = k
    · simp [alookup, hp]
    · simp only [alookup, if_neg hp, List.map_cons, List.mem_cons]
      rw [ih]
      constructor
      · intro h1 h2
        rcases h2 with h2 | h2
        · exact hp h2.symm
        · exact h1 h2
      · intro h1 h2
        exact h1 (Or.inr h2)

theorem mem_alookup {α : Type} {l : List (List Nat × α)} {k : List Nat} {v : α}
    (hnd : (l.map Prod.fst).Nodup) (h : (k, v) ∈ l) : alookup l k = some v := by
  induction l with
  | nil => cases h
  | cons p rest ih =>
    simp only [List.map_cons, List.nodup_cons] at hnd
    rcases List.mem_cons.mp h with rfl | h
    · rw [alookup, if_pos rfl]
    · by_cases hp : p.1 = k
      · exfalso
        apply hnd.1
        rw [hp]
        exact List.mem_map.mpr ⟨(k, v), h, rfl⟩
      · rw [alookup, if_neg hp]
        exact ih hnd.2 h

theorem keys_mem_ainsert {α : Type} {l : List (List Nat × α)} {k y : List Nat} {v : α}
    (hy : y ∈ (ainsert l k v).2.map Prod.fst) : y = k ∨ y ∈ l.map Prod.fst := by
  rcases List.mem_map.mp hy with ⟨x, hx, rfl⟩
  rcases mem_ainsert hx with rfl | hx
  · exact Or.inl rfl
  · exact Or.inr (List.mem_map.mpr ⟨x, hx, rfl⟩)

theorem ainsert_keys_nodup {α : Type} {l : List (List Nat × α)} {k : List Nat} {v : α}
    (h : (l.map Prod.fst).Nodup) : ((ainsert l k v).2.map Prod.fst).Nodup := by
  induction l with
  | nil => simp [ainsert]
  | cons p rest ih =>
    simp only [List.map_cons, List.nodup_cons] at h
    by_cases hp : p.1 = k
    · simp only [ainsert, if_pos hp, List.map_cons, List.nodup_cons]
      refine ⟨?_, h.2⟩
      rw [← hp]
      exact h.1
    · simp only [ainsert, if_neg hp, List.map_cons, List.nodup_cons]
      refine ⟨?_, ih h.2⟩
      intro hmem
      rcases keys_mem_ainsert hmem with rfl | hmem
      · exact hp rfl
      · exact h.1 hmem

theorem aerase_sublist {α : Type} (l : List (List Nat × α)) (k : List Nat) :
    (aerase l k).Sublist l := by
  induction l with
  | nil => simp [aerase]
  | cons p rest ih =>
    by_cases hp : p.1 = k
    · rw [aerase, if_pos hp]
      exact List.sublist_cons_of_sublist _ (List.Sublist.refl _)
    · rw [aerase, if_neg hp]
      exact List.Sublist.cons₂ _ ih

theorem mem_aerase_of_ne {α : Type} {l : List (List Nat × α)} {k : List Nat}
    {x : List Nat × α} (hx : x ∈ l) (hne : x.1 ≠ k) : x ∈ aerase l k := by
  induction l with
  | nil => cases hx
  | cons p rest ih =>
    by_cases hp : p.1 = k
    · rw [aerase, if_pos hp]
      rcases List.mem_cons.mp hx with rfl | hx
      · exact absurd hp hne
      · exact hx
    · rw [aerase, if_neg hp]
      rcases List.mem_cons.mp hx with rfl | hx
      · exact List.mem_cons_self _ _
      · exact List.mem_cons_of_mem _ (ih hx)

theorem alookup_aerase_ne {α : Type} {l : List (List Nat × α)} {k k2 : List Nat}
    (hne : k2 ≠ k) : alookup (aerase l k2) k = alookup l k := by
  induction l with
  | nil => simp [aerase]
  | cons p rest ih =>
    by_cases hp : p.1 = k2
    · rw [aerase, if_pos hp, alookup, if_neg (by rw [hp]; exact hne)]
    · rw [aerase, if_neg hp, alookup, alookup]
      by_cases h2 : p.1 = k
      · rw [if_pos h2, if_pos h2]
      · rw [if_neg h2, if_neg h2]
        exact ih

/-! The store invariant of section 3 and its preservation. -/

/-- Invariant of the store state: expirations is sorted (BTreeSet order),
entry keys are unique (HashMap), a key appears in expirations iff its entry
has expires_at set and the instant matches, and every pair points back to a
live entry. -/
def DbInv (st : DbState) : Prop :=
  expSortedB st.expirations = true ∧
  (st.entries.map Prod.fst).Nodup ∧
  (∀ p ∈ st.entries, ∀ t, p.2.expires_at = some t → (t, p.1) ∈ st.expirations) ∧
  (∀ p ∈ st.entries, ∀ q ∈ st.expirations, q.2 = p.1 → p.2.expires_at = some q.1) ∧
  (∀ q ∈ st.expirations, ∃ e, (q.2, e) ∈ st.entries ∧ e.expires_at = some q.1)

/-- Minimum of a list of instants, as an Option. -/
def minOpt : List Nat → Option Nat
  | [] => none
  | x :: xs => some ((minOpt xs).elim x (Nat.min x))

theorem minOpt_mem : ∀ {l : List Nat} {m : Nat}, minOpt l = some m → m ∈ l := by
  intro l
  induction l with
  | nil => intro m h; cases h
  | cons x xs ih =>
    intro m h
    rw [minOpt] at h
    cases hm : minOpt xs with
    | none =>
      rw [hm] at h
      simp only [Option.elim, Option.some.injEq] at h
      simp [← h]
    | some m' =>
      rw [hm] at h
      simp only [Option.elim, Option.some.injEq] at h
      have hmm : m = x ∨ m = m' := by
        simp only [Nat.min_def] at h
        by_cases hle : x ≤ m'
        · rw [if_pos hle] at h
          exact Or.inl h.symm
        · rw [if_neg hle] at h
          exact Or.inr h.symm
      rcases hmm with rfl | rfl
      · simp
      · exact List.mem_cons_of_mem _ (ih hm)

theorem minOpt_le : ∀ {l : List Nat} {x : Nat}, x ∈ l → ∃ m, minOpt l = some m ∧ m ≤ x := by
  intro l
  induction l with
  | nil => intro x hx; cases hx
  | cons y ys ih =>
    intro x hx
    rcases List.mem_cons.mp hx with rfl | hx
    · cases hm : minOpt ys with
      | none => exact ⟨x, by simp [minOpt, hm, Option.elim], le_refl x⟩
      | some m => exact ⟨Nat.min x m, by simp [minOpt, hm, Option.elim], Nat.min_le_left _ _⟩
    · obtain ⟨m, hm, hle⟩ := ih hx
      exact ⟨Nat.min y m, by simp [minOpt, hm, Option.elim], le_trans (Nat.min_le_right _ _) hle⟩

theorem minOpt_congr {l l' : List Nat} (h : ∀ x, x ∈ l ↔ x ∈ l') :
    minOpt l = minOpt l' := by
  cases hl : minOpt l with
  | none =>
    cases hl' : minOpt l' with
    | none => rfl
    | some m =>
      exfalso
      have hm := (h m).mpr (minOpt_mem hl')
      obtain ⟨m2, hm2, -⟩ := minOpt_le hm
      rw [hl] at hm2
      cases hm2
  | some m =>
    cases hl' : minOpt l' with
    | none =>
      exfalso
      have hm := (h m).mp (minOpt_mem hl)
      obtain ⟨m2, hm2, -⟩ := minOpt_le hm
      rw [hl'] at hm2
      cases hm2
    | some m' =>
      have h1 := (h m).mp (minOpt_mem hl)
      have h2 := (h m').mpr (minOpt_mem hl')
      obtain ⟨a, ha, hale⟩ := minOpt_le h2
      obtain ⟨b, hb, hble⟩ := minOpt_le h1
      rw [hl] at ha
      rw [hl'] at hb
      simp only [Option.some.injEq] at ha hb ⊢
      omega

theorem expLt_fst_le {p q : Nat × List Nat} (h : expLt p q = true) : p.1 ≤ q.1 := by
  simp only [expLt] at h
  by_cases h1 : p.1 < q.1
  · omega
  · rw [if_neg h1] at h
    by_cases h2 : q.1 < p.1
    · rw [if_pos h2] at h
      cases h
    · omega

/-- Under the invariant, the smallest recorded expiration equals the
minimum expires_at over all entries. -/
theorem Inv_nextExpiration_eq_min {st : DbState} (hInv : DbInv st) :
    nextExpiration st = minOpt (st.entries.filterMap fun p => p.2.expires_at) := by
  obtain ⟨hs, hnd, hl1, hl2, hl3⟩ := hInv
  cases hX : st.expirations with
  | nil =>
    rw [nextExpiration, hX]
    cases hm : minOpt (st.entries.filterMap fun p => p.2.expires_at) with
    | none => rfl
    | some m =>
      exfalso
      have := minOpt_mem hm
      rcases List.mem_filterMap.mp this with ⟨p, hp, hpe⟩
      have := hl1 p hp m hpe
      rw [hX] at this
      cases this
  | cons q rest =>
    rw [nextExpiration, hX]
    simp only [List.head?_cons, Option.map_some']
    obtain ⟨e, he, hee⟩ := hl3 q (by rw [hX]; exact List.mem_cons_self _ _)
    have hq1 : q.1 ∈ st.entries.filterMap fun p => p.2.expires_at :=
      List.mem_filterMap.mpr ⟨(q.2, e), he, hee⟩
    obtain ⟨m, hm, hle⟩ := minOpt_le hq1
    rw [hm]
    simp only [Option.some.injEq]
    have hge : q.1 ≤ m := by
      have hmem := minOpt_mem hm
      rcases List.mem_filterMap.mp hmem with ⟨p, hp, hpe⟩
      have hx := hl1 p hp m hpe
      rw [hX] at hx
      rcases List.mem_cons.mp hx with he2 | hx
      · rw [← he2]
      · have := sorted_head_lt (hX ▸ hs) _ hx
        exact expLt_fst_le this
    omega

theorem mem_ainsert_strong {α : Type} {l : List (List Nat × α)} {k : List Nat} {v : α}
    {x : List Nat × α} (hnd : (l.map Prod.fst).Nodup) (hx : x ∈ (ainsert l k v).2) :
    x = (k, v) ∨ (x ∈ l ∧ x.1 ≠ k) := by
  induction l with
  | nil => simp_all [ainsert]
  | cons p rest ih =>
    simp only [List.map_cons, List.nodup_cons] at hnd
    by_cases h : p.1 = k
    · simp only [ainsert, if_pos h] at hx
      rcases List.mem_cons.mp hx with rfl | hx
      · exact Or.inl rfl
      · refine Or.inr ⟨List.mem_cons_of_mem _ hx, ?_⟩
        intro hxe
        apply hnd.1
        rw [h]
        rw [← hxe]
        exact List.mem_map.mpr ⟨x, hx, rfl⟩
    · simp only [ainsert, if_neg h] at hx
      rcases List.mem_cons.mp hx with rfl | hx
      · exact Or.inr ⟨List.mem_cons_self _ _, h⟩
      · rcases ih hnd.2 hx with h1 | ⟨h1, h2⟩
        · exact Or.inl h1
        · exact Or.inr ⟨List.mem_cons_of_mem _ h1, h2⟩

theorem aerase_key_ne {α : Type} {l : List (List Nat × α)} {k : List Nat}
    (hnd : (l.map Prod.fst).Nodup) : ∀ x ∈ aerase l k, x.1 ≠ k := by
  induction l with
  | nil => intro x hx; cases hx
  | cons p rest ih =>
    simp only [List.map_cons, List.nodup_cons] at hnd
    intro x hx
    by_cases hp : p.1 = k
    · rw [aerase, if_pos hp] at hx
      intro hxe
      apply hnd.1
      rw [hp]
      rw [← hxe]
      exact List.mem_map.mpr ⟨x, hx, rfl⟩
    · rw [aerase, if_neg hp] at hx
      rcases List.mem_cons.mp hx with rfl | hx
      · exact hp
      · exact ih hnd.2 x hx

theorem aerase_subset {α : Type} {l : List (List Nat × α)} {k : List Nat}
    {x : List Nat × α} (hx : x ∈ aerase l k) : x ∈ l :=
  (aerase_sublist l k).mem hx

/-- Db::set preserves the invariant. -/
theorem Inv_dbSet {st : DbState} (hInv : DbInv st) (k v : List Nat)
    (e : Option Nat) (now : Nat) : DbInv (dbSet st k v e now).1 := by
  obtain ⟨hs, hnd, hl1, hl2, hl3⟩ := hInv
  -- Notation for the pieces of dbSet.
  simp only [dbSet, ainsert_fst]
  set ea : Option Nat := e.map fun d => now + d with hea
  set ent : DbEntry := { data := v, expires_at := ea } with hent
  set E' := (ainsert st.entries k ent).2 with hE'
  set exp1 :=
    (match alookup st.entries k with
     | some prev =>
       match prev.expires_at with
       | some pe => btRemove st.expirations (pe, k)
       | none => st.expirations
     | none => st.expirations) with hexp1
  have hexp1_sub : ∀ x ∈ exp1, x ∈ st.expirations := by
    intro x hx
    rw [hexp1] at hx
    cases halok : alookup st.entries k with
    | none => rw [halok] at hx; exact hx
    | some prev =>
      rw [halok] at hx
      simp only at hx
      cases hpe : prev.expires_at with
      | none => rw [hpe] at hx; exact hx
      | some pe =>
        rw [hpe] at hx
        simp only at hx
        exact btRemove_subset hx
  have hexp1_mem : ∀ x ∈ st.expirations, x.2 ≠ k → x ∈ exp1 := by
    intro x hx hxk
    rw [hexp1]
    cases halok : alookup st.entries k with
    | none => exact hx
    | some prev =>
      simp only
      cases hpe : prev.expires_at with
      | none => simp only [hpe]; exact hx
      | some pe =>
        simp only [hpe]
        refine mem_btRemove_of_ne hx ?_
        intro hxe
        apply hxk
        rw [hxe]
  have hexp1_nok : ∀ t, (t, k) ∉ exp1 := by
    intro t ht
    have htX := hexp1_sub _ ht
    obtain ⟨e2, he2, he2e⟩ := hl3 (t, k) htX
    have halok : alookup st.entries k = some e2 := mem_alookup hnd he2
    rw [hexp1, halok] at ht
    simp only at ht
    rw [he2e] at ht
    simp only at ht
    exact not_mem_btRemove_self hs ht
  have hexp1_sorted : expSortedB exp1 = true := by
    rw [hexp1]
    cases halok : alookup st.entries k with
    | none => exact hs
    | some prev =>
      simp only
      cases hpe : prev.expires_at with
      | none => simp only [hpe]; exact hs
      | some pe => simp only [hpe]; exact btRemove_sorted hs
  cases e with
  | none =>
    -- no new expiry: ea = none, expirations become exp1
    refine ⟨hexp1_sorted, ainsert_keys_nodup hnd, ?_, ?_, ?_⟩
    · intro p hp t hpt
      rcases mem_ainsert_strong hnd hp with rfl | ⟨hp, hpk⟩
      · cases hpt
      · exact hexp1_mem _ (hl1 p hp t hpt) (by simpa using hpk)
    · intro p hp q hq hqp
      rcases mem_ainsert_strong hnd hp with rfl | ⟨hp, hpk⟩
      · exfalso
        apply hexp1_nok q.1
        have : q = (q.1, k) := by
          simp only at hqp
          rw [← hqp]
        rw [← this]
        exact hq
      · exact hl2 p hp q (hexp1_sub _ hq) hqp
    · intro q hq
      obtain ⟨e2, he2, he2e⟩ := hl3 q (hexp1_sub _ hq)
      refine ⟨e2, ?_, he2e⟩
      apply mem_ainsert_of_mem_ne he2
      intro hqk
      apply hexp1_nok q.1
      have : q = (q.1, k) := by
        rw [← hqk]
      rw [← this]
      exact hq
  | some d =>
    -- new expiry now + d: the pair (now + d, k) is inserted
    refine ⟨btInsert_sorted hexp1_sorted, ainsert_keys_nodup hnd, ?_, ?_, ?_⟩
    · intro p hp t hpt
      rcases mem_ainsert_strong hnd hp with rfl | ⟨hp, hpk⟩
      · have : t = now + d := by
          simp only [hent, hea, Option.map_some'] at hpt
          simp only [Option.some.injEq] at hpt
          omega
        subst this
        exact mem_btInsert.mpr (Or.inl rfl)
      · exact mem_btInsert.mpr
          (Or.inr (hexp1_mem _ (hl1 p hp t hpt) (by simpa using hpk)))
    · intro p hp q hq hqp
      rcases mem_ainsert_strong hnd hp with rfl | ⟨hp, hpk⟩
      · rcases mem_btInsert.mp hq with rfl | hq
        · rfl
        · exfalso
          apply hexp1_nok q.1
          have : q = (q.1, k) := by
            simp only at hqp
            rw [← hqp]
          rw [← this]
          exact hq
      · rcases mem_btInsert.mp hq with rfl | hq
        · exfalso
          apply hpk
          simpa using hqp.symm
        · exact hl2 p hp q (hexp1_sub _ hq) hqp
    · intro q hq
      rcases mem_btInsert.mp hq with rfl | hq
      · exact ⟨ent, self_mem_ainsert _ _ _, rfl⟩
      · obtain ⟨e2, he2, he2e⟩ := hl3 q (hexp1_sub _ hq)
        refine ⟨e2, ?_, he2e⟩
        apply mem_ainsert_of_mem_ne he2
        intro hqk
        apply hexp1_nok q.1
        have : q = (q.1, k) := by
          rw [← hqk]
        rw [← this]
        exact hq

/-- The purge loop preserves the invariant fields it touches. -/
theorem purgeLoop_inv :
    ∀ (X : List (Nat × List Nat)) (E : List (List Nat × DbEntry)) (now : Nat),
      expSortedB X = true → (E.map Prod.fst).Nodup →
      (∀ p ∈ E, ∀ t, p.2.expires_at = some t → (t, p.1) ∈ X) →
      (∀ p ∈ E, ∀ q ∈ X, q.2 = p.1 → p.2.expires_at = some q.1) →
      (∀ q ∈ X, ∃ e, (q.2, e) ∈ E ∧ e.expires_at = some q.1) →
      expSortedB (purgeLoop E X now).2.1 = true ∧
      ((purgeLoop E X now).1.map Prod.fst).Nodup ∧
      (∀ p ∈ (purgeLoop E X now).1, ∀ t, p.2.expires_at = some t →
        (t, p.1) ∈ (purgeLoop E X now).2.1) ∧
      (∀ p ∈ (purgeLoop E X now).1, ∀ q ∈ (purgeLoop E X now).2.1, q.2 = p.1 →
        p.2.expires_at = some q.1) ∧
      (∀ q ∈ (purgeLoop E X now).2.1, ∃ e, (q.2, e) ∈ (purgeLoop E X now).1 ∧
        e.expires_at = some q.1) := by
  intro X
  induction X with
  | nil =>
    intro E now hs hnd hl1 hl2 hl3
    simp only [purgeLoop]
    exact ⟨rfl, hnd, hl1, hl2, hl3⟩
  | cons q rest ih =>
    intro E now hs hnd hl1 hl2 hl3
    obtain ⟨wh, key⟩ := q
    by_cases hwh : now < wh
    · simp only [purgeLoop, if_pos hwh]
      exact ⟨hs, hnd, hl1, hl2, hl3⟩
    · simp only [purgeLoop, if_neg hwh]
      obtain ⟨-, hs2⟩ := expSortedB_cons hs
      have hnd2 : ((aerase E key).map Prod.fst).Nodup :=
        ((aerase_sublist E key).map Prod.fst).nodup hnd
      apply ih (aerase E key) now hs2 hnd2
      · intro p hp t hpt
        have hpE := aerase_subset hp
        have hx := hl1 p hpE t hpt
        rcases List.mem_cons.mp hx with he | hx
        · exfalso
          have := aerase_key_ne hnd p hp
          apply this
          have : p.1 = ((wh, key) : Nat × List Nat).2 := by
            rw [← he]
          simpa using this
        · exact hx
      · intro p hp q2 hq2 hq2p
        exact hl2 p (aerase_subset hp) q2 (List.mem_cons_of_mem _ hq2) hq2p
      · intro q2 hq2
        obtain ⟨e2, he2, he2e⟩ := hl3 q2 (List.mem_cons_of_mem _ hq2)
        refine ⟨e2, ?_, he2e⟩
        apply mem_aerase_of_ne he2
        intro hq2k
        simp only [Prod.fst] at hq2k
        obtain ⟨e3, he3, he3e⟩ := hl3 (wh, key) (List.mem_cons_self _ _)
        have he23 : e2 = e3 := by
          have h1 : alookup E q2.2 = some e2 := mem_alookup hnd he2
          have h2 : alookup E key = some e3 := mem_alookup hnd (by simpa using he3)
          rw [hq2k] at h1
          rw [h1] at h2
          simpa using h2
        have hq1wh : q2.1 = wh := by
          rw [he23] at he2e
          rw [he2e] at he3e
          simpa using he3e
        have hq2eq : q2 = (wh, key) := by
          obtain ⟨a, b⟩ := q2
          simp only at hq1wh hq2k
          rw [hq1wh, hq2k]
        have := sorted_head_lt hs q2 hq2
        rw [hq2eq, expLt_irrefl] at this
        cases this

/-- Shared::purge_expired_keys preserves the invariant. -/
theorem Inv_purge {st : DbState} (hInv : DbInv st) (now : Nat) :
    DbInv (purgeExpiredKeys st now).1 := by
  obtain ⟨hs, hnd, hl1, hl2, hl3⟩ := hInv
  rw [purgeExpiredKeys]
  by_cases hsd : st.shutdown
  · rw [if_pos hsd]
    exact ⟨hs, hnd, hl1, hl2, hl3⟩
  · rw [if_neg hsd]
    have := purgeLoop_inv st.expirations st.entries now hs hnd hl1 hl2 hl3
    exact ⟨this.1, this.2.1, this.2.2.1, this.2.2.2.1, this.2.2.2.2⟩

/-- Db::subscribe only touches pub_sub, so the invariant carries over. -/
theorem Inv_subscribe {st : DbState} (hInv : DbInv st) (ch : List Nat) :
    DbInv (dbSubscribe st ch) := by
  obtain ⟨hs, hnd, hl1, hl2, hl3⟩ := hInv
  rw [dbSubscribe]
  cases alookup st.pub_sub ch <;> exact ⟨hs, hnd, hl1, hl2, hl3⟩

/-- Db::shutdown_purge_task only raises the flag. -/
theorem Inv_shutdown {st : DbState} (hInv : DbInv st) :
    DbInv (shutdownPurgeTask st) := by
  obtain ⟨hs, hnd, hl1, hl2, hl3⟩ := hInv
  exact ⟨hs, hnd, hl1, hl2, hl3⟩

theorem purgeLoop_alookup :
    ∀ (X : List (Nat × List Nat)) (E : List (List Nat × DbEntry)) (now : Nat)
      (k : List Nat), (∀ q ∈ X, q.2 ≠ k) →
      alookup (purgeLoop E X now).1 k = alookup E k := by
  intro X
  induction X with
  | nil => intro E now k _; rfl
  | cons q rest ih =>
    intro E now k hk
    obtain ⟨wh, key⟩ := q
    by_cases hwh : now < wh
    · simp [purgeLoop, if_pos hwh]
    · simp only [purgeLoop, if_neg hwh]
      rw [ih (aerase E key) now k (fun q2 hq2 => hk q2 (List.mem_cons_of_mem _ hq2))]
      apply alookup_aerase_ne
      exact hk (wh, key) (List.mem_cons_self _ _)

/-! The writer against the section 4.1 encoding. -/

/-- Whether a frame is an Array. -/
def isArrayFrame : Frame → Bool
  | .array _ => true
  | _ => false

theorem writeValue_eq_specEncode {f : Frame} {bx : List Nat}
    (h : writeValue f = some bx) (hu : u64Ok f = true) : bx = specEncode f := by
  cases f with
  | null => simpa [writeValue, specEncode] using h.symm
  | simple s => simpa [writeValue, specEncode] using h.symm
  | error s => simpa [writeValue, specEncode] using h.symm
  | integer n => simpa [writeValue, writeDec, specEncode] using h.symm
  | bulk b =>
    have hlen : b.length < u64size := by simpa [u64Ok] using hu
    have hmod : b.length % u64size = b.length := Nat.mod_eq_of_lt hlen
    simp only [writeValue, writeDec, hmod, Option.some.injEq] at h
    rw [← h]
    simp [specEncode]
  | array xs => simp [writeValue] at h

theorem writeList_eq_specEncodeList :
    ∀ {xs : List Frame} {body : List Nat}, writeList xs = some body →
      u64OkList xs = true → body = specEncodeList xs := by
  intro xs
  induction xs with
  | nil =>
    intro body h _
    simp only [writeList, Option.some.injEq] at h
    rw [← h, specEncodeList]
  | cons x xs ih =>
    intro body h hu
    rw [u64OkList, Bool.and_eq_true] at hu
    simp only [writeList] at h
    cases hv : writeValue x with
    | none => rw [hv] at h; cases h
    | some bx =>
      cases hl : writeList xs with
      | none => rw [hv, hl] at h; cases h
      | some body' =>
        rw [hv, hl] at h
        simp only [Option.some.injEq] at h
        rw [← h, specEncodeList, writeValue_eq_specEncode hv hu.1, ih hl hu.2]

theorem writeFrame_eq_specEncode {f : Frame} {bs : List Nat}
    (h : writeFrame f = some bs) (hu : u64Ok f = true) : bs = specEncode f := by
  cases f with
  | array xs =>
    have hxslen : xs.length < u64size := by
      rw [u64Ok, Bool.and_eq_true] at hu
      have := hu.1
      simpa [u64Len_eq] using this
    have hmod : xs.length % u64size = xs.length := Nat.mod_eq_of_lt hxslen
    simp only [writeFrame] at h
    cases hl : writeList xs with
    | none => rw [hl] at h; cases h
    | some body =>
      rw [hl] at h
      simp only [Option.map_some', Option.some.injEq, writeDec, hmod] at h
      rw [← h, specEncode, specLen_eq]
      rw [writeList_eq_specEncodeList hl (by rw [u64Ok, Bool.and_eq_true] at hu; exact hu.2)]
  | null => exact writeValue_eq_specEncode h hu
  | simple s => exact writeValue_eq_specEncode h hu
  | error s => exact writeValue_eq_specEncode h hu
  | integer n => exact writeValue_eq_specEncode h hu
  | bulk b => exact writeValue_eq_specEncode h hu

theorem writeValue_none_iff {f : Frame} : writeValue f = none ↔ isArrayFrame f = true := by
  cases f <;> simp [writeValue, isArrayFrame]

theorem writeList_none_iff :
    ∀ {xs : List Frame}, writeList xs = none ↔ ∃ x ∈ xs, isArrayFrame x = true := by
  intro xs
  induction xs with
  | nil => simp [writeList]
  | cons x xs ih =>
    simp only [writeList]
    cases hv : writeValue x with
    | none =>
      simp only [true_iff]
      exact ⟨x, List.mem_cons_self _ _, writeValue_none_iff.mp hv⟩
    | some bx =>
      cases hl : writeList xs with
      | none =>
        simp only [true_iff]
        obtain ⟨y, hy, hyA⟩ := ih.mp hl
        exact ⟨y, List.mem_cons_of_mem _ hy, hyA⟩
      | some body' =>
        simp only
        constructor
        · intro h; cases h
        · rintro ⟨y, hy, hyA⟩
          rcases List.mem_cons.mp hy with rfl | hy
          · rw [writeValue_none_iff.mpr hyA] at hv
            cases hv
          · rw [ih.mpr ⟨y, hy, hyA⟩] at hl
            cases hl

theorem writeFrame_array_none_iff (xs : List Frame) :
    writeFrame (.array xs) = none ↔ ∃ x ∈ xs, isArrayFrame x = true := by
  simp only [writeFrame]
  cases hl : writeList xs with
  | none => simpa using writeList_none_iff.mp hl
  | some body =>
    simp only [Option.map_some']
    constructor
    · intro h; cases h
    · intro h
      rw [writeList_none_iff.mpr h] at hl
      cases hl

/-! Claim theorems. -/

/-- Empty store state, as built by Db::new. -/
def emptyDb : DbState := { entries := [], pub_sub := [], expirations := [], shutdown := false }

/-- Store state holding one key with an expiry at instant 7. -/
def oneKeyDb : DbState :=
  { entries := [([107], { data := [118], expires_at := some 7 })]
    pub_sub := []
    expirations := [(7, [107])]
    shutdown := false }

/-- Store state with one pub/sub channel carrying one receiver. -/
def oneChanDb : DbState :=
  { entries := []
    pub_sub := [([99], { capacity := 1024, receivers := 1 })]
    expirations := []
    shutdown := false }

theorem DbInv_empty : DbInv emptyDb := by
  refine ⟨rfl, List.nodup_nil, ?_, ?_, ?_⟩ <;> simp [emptyDb]

theorem DbInv_oneKey : DbInv oneKeyDb := by
  refine ⟨rfl, by simp [oneKeyDb], ?_, ?_, ?_⟩ <;> simp [oneKeyDb]

/-- Claim C1: after set(k, v) with no expiry, get(k) returns the stored
bytes v until k is overwritten by a later set — a set of a different key, a
subscribe, or an eviction purge (the only remover, which never touches an
entry without expiry) leave it intact; get of an absent key returns
nothing; and the GET command answers Bulk(value) when the key is present
and Null otherwise. -/
theorem claim_C1_get_after_set (st : DbState) (k v : List Nat) (now : Nat)
    (hInv : DbInv st) :
    dbGet (dbSet st k v none now).1 k = some v ∧
    (∀ k2 v2 e2 now2, k2 ≠ k → dbGet (dbSet st k2 v2 e2 now2).1 k = dbGet st k) ∧
    (∀ ch, dbGet (dbSubscribe st ch) k = dbGet st k) ∧
    (alookup st.entries k = none → dbGet st k = none) ∧
    (∀ v2, dbGet st k = some v2 → getApply st k = .bulk v2) ∧
    (dbGet st k = none → getApply st k = .null) ∧
    (∀ e, alookup st.entries k = some e → e.expires_at = none →
      ∀ now2, dbGet (purgeExpiredKeys st now2).1 k = dbGet st k) := by
  obtain ⟨hs, hnd, hl1, hl2, hl3⟩ := hInv
  refine ⟨?_, ?_, ?_, ?_, ?_, ?_, ?_⟩
  · simp [dbGet, dbSet, alookup_ainsert_self]
  · intro k2 v2 e2 now2 hne
    simp [dbGet, dbSet, alookup_ainsert_ne _ _ _ _ hne]
  · intro ch
    rw [dbSubscribe]
    cases alookup st.pub_sub ch <;> rfl
  · intro h
    simp [dbGet, h]
  · intro v2 h
    simp [getApply, h]
  · intro h
    simp [getApply, h]
  · intro e he hee now2
    rw [purgeExpiredKeys]
    by_cases hsd : st.shutdown
    · rw [if_pos hsd]
    · rw [if_neg hsd]
      simp only [dbGet]
      rw [purgeLoop_alookup st.expirations st.entries now2 k]
      intro q hq hqk
      obtain ⟨e2, he2, he2e⟩ := hl3 q hq
      rw [hqk] at he2
      rw [mem_alookup hnd he2] at he
      simp only [Option.some.injEq] at he
      rw [← he] at hee
      rw [hee] at he2e
      cases he2e

theorem claim_C1_get_after_set_witness :
    DbInv emptyDb ∧
    dbGet (dbSet emptyDb [107] [118] none 0).1 [107] = some [118] :=
  ⟨DbInv_empty, (claim_C1_get_after_set _ [107] [118] 0 DbInv_empty).1⟩

/-- Claim C2: every store operation preserves the invariant that a key
appears in expirations iff its entry has expires_at set with a matching
instant, and under the invariant the smallest element of expirations equals
the minimum expires_at over all entries.  The operations set, subscribe,
purge_expired_keys and shutdown_purge_task are the ones that return a
state; get and publish only read the entry and channel maps (they take a
shared reference and mutate neither entries nor expirations), so in this
model they return no state at all and preservation is by construction. -/
theorem claim_C2_invariant (st : DbState) (hInv : DbInv st) :
    (∀ k v e now, DbInv (dbSet st k v e now).1) ∧
    (∀ ch, DbInv (dbSubscribe st ch)) ∧
    (∀ now, DbInv (purgeExpiredKeys st now).1) ∧
    DbInv (shutdownPurgeTask st) ∧
    nextExpiration st = minOpt (st.entries.filterMap fun p => p.2.expires_at) :=
  ⟨fun k v e now => Inv_dbSet hInv k v e now, fun ch => Inv_subscribe hInv ch,
   fun now => Inv_purge hInv now, Inv_shutdown hInv, Inv_nextExpiration_eq_min hInv⟩

theorem claim_C2_invariant_witness :
    DbInv oneKeyDb ∧
    DbInv (dbSet oneKeyDb [106] [119] (some 9) 1).1 ∧
    nextExpiration oneKeyDb = minOpt (oneKeyDb.entries.filterMap fun p => p.2.expires_at) :=
  ⟨DbInv_oneKey, (claim_C2_invariant _ DbInv_oneKey).1 [106] [119] (some 9) 1,
   (claim_C2_invariant _ DbInv_oneKey).2.2.2.2⟩

/-- Claim C6: set signals the eviction task iff a ttl is given and the new
expiry instant now + d is strictly earlier than every recorded expiration
(equivalently, than the previously-smallest one, or none was recorded); a
set with no ttl never signals. -/
theorem claim_C6_notify (st : DbState) (hs : expSortedB st.expirations = true)
    (k v : List Nat) (now d : Nat) :
    ((dbSet st k v (some d) now).2 = true ↔ ∀ q ∈ st.expirations, now + d < q.1) ∧
    (dbSet st k v none now).2 = false := by
  constructor
  · simp only [dbSet, nextExpiration]
    cases hX : st.expirations with
    | nil => simp
    | cons q rest =>
      simp only [List.head?_cons, Option.map_some', decide_eq_true_eq]
      constructor
      · intro h q2 hq2
        rcases List.mem_cons.mp hq2 with rfl | hq2
        · exact h
        · have := sorted_head_lt (hX ▸ hs) q2 hq2
          have := expLt_fst_le this
          omega
      · intro h
        exact h q (List.mem_cons_self _ _)
  · rfl

theorem claim_C6_notify_witness :
    expSortedB oneKeyDb.expirations = true ∧
    ((dbSet oneKeyDb [106] [119] (some 2) 1).2 = true ↔
      ∀ q ∈ oneKeyDb.expirations, 1 + 2 < q.1) :=
  ⟨rfl, (claim_C6_notify oneKeyDb rfl [106] [119] 1 2).1⟩

/-- Claim C7: publish returns the number of currently-attached receivers
that accepted the message; it returns 0 without failing (the send error is
swallowed by unwrap_or) when the channel has no broadcast endpoint, when no
receiver is attached so the send is rejected, or after the last receiver on
the channel has been dropped. -/
theorem claim_C7_publish (st : DbState) (ch msg : List Nat) :
    (alookup st.pub_sub ch = none → dbPublish st ch msg = 0) ∧
    (∀ c, alookup st.pub_sub ch = some c → c.receivers = 0 →
      dbPublish st ch msg = 0) ∧
    (∀ c, alookup st.pub_sub ch = some c → 0 < c.receivers →
      dbPublish st ch msg = c.receivers) ∧
    (∀ c, alookup st.pub_sub ch = some c → c.receivers = 1 →
      ∀ msg2, dbPublish (dropReceiver st ch) ch msg2 = 0) := by
  refine ⟨?_, ?_, ?_, ?_⟩
  · intro h
    simp [dbPublish, h]
  · intro c hc hr
    simp [dbPublish, hc, chanSend, hr]
  · intro c hc hr
    have h0 : c.receivers ≠ 0 := by omega
    simp [dbPublish, hc, chanSend, h0]
  · intro c hc hr msg2
    simp [dropReceiver, hc, dbPublish, alookup_ainsert_self, chanSend, hr]

theorem claim_C7_publish_witness :
    alookup oneChanDb.pub_sub [99] = some { capacity := 1024, receivers := 1 } ∧
    dbPublish oneChanDb [99] [104] = 1 ∧
    dbPublish (dropReceiver oneChanDb [99]) [99] [104] = 0 :=
  ⟨rfl,
   (claim_C7_publish oneChanDb [99] [104]).2.2.1
     { capacity := 1024, receivers := 1 } rfl (by decide),
   (claim_C7_publish oneChanDb [99] [104]).2.2.2
     { capacity := 1024, receivers := 1 } rfl rfl [104]⟩

theorem getDecimal_protocol {input line r : List Nat}
    (h : getLine input = some (line, r)) (ha : atoi line = none) :
    getDecimal input = .error (.other protoInvalidFmt) := by
  rw [getDecimal, h]
  simp only [ha]

/-- Claim C3 counterexample: the frame Simple [97, 13, 10, 98] contains no
Null inside an Array, yet parsing its encoding stops at the CRLF embedded
in the payload and returns a different frame, consuming fewer bytes than
the whole encoding; the round-trip sentence fails as stated. -/
theorem claim_C3_counterexample :
    hasNullInArray (Frame.simple [97, 13, 10, 98]) = false ∧
    writeFrame (Frame.simple [97, 13, 10, 98]) = some [43, 97, 13, 10, 98, 13, 10] ∧
    parseFrame 8 [43, 97, 13, 10, 98, 13, 10] = .ok (Frame.simple [97], [98, 13, 10]) ∧
    Frame.simple [97] ≠ Frame.simple [97, 13, 10, 98] := by
  refine ⟨rfl, rfl, rfl, ?_⟩
  simp

/-- Claim C3 as amended: for every frame whose Simple and Error payloads
are CR/LF-free valid UTF-8, whose integers and lengths fit u64 (facts the
Rust types already guarantee except for CR/LF-freeness), that contains no
Array directly inside an Array (the writer panics there) and no top-level
Null inside an Array (the exclusion of the original claim), parsing the
writer output returns the frame and consumes exactly the bytes that check
walks: both leave exactly the trailing rest. -/
theorem claim_C3_roundtrip (f : Frame) (hwf : wfb f = true)
    (_hnn : hasNullInArray f = false) (bs rest : List Nat)
    (henc : writeFrame f = some bs) (fuel : Nat) (hfuel : depth f ≤ fuel) :
    parseFrame fuel (bs ++ rest) = .ok (f, rest) ∧
    check fuel (bs ++ rest) = .ok rest := by
  have h := rtAll f hwf bs henc rest fuel hfuel
  exact ⟨h.2, h.1⟩

theorem claim_C3_roundtrip_witness :
    wfb (Frame.array [Frame.bulk [255, 13], Frame.integer 5, Frame.simple [79, 75]]) = true ∧
    hasNullInArray (Frame.array [Frame.bulk [255, 13], Frame.integer 5,
      Frame.simple [79, 75]]) = false ∧
    parseFrame 2 ([42, 51, 13, 10, 36, 50, 13, 10, 255, 13, 13, 10, 58, 53, 13, 10,
        43, 79, 75, 13, 10] ++ [0]) =
      .ok (Frame.array [Frame.bulk [255, 13], Frame.integer 5, Frame.simple [79, 75]], [0]) ∧
    check 2 ([42, 51, 13, 10, 36, 50, 13, 10, 255, 13, 13, 10, 58, 53, 13, 10,
        43, 79, 75, 13, 10] ++ [0]) = .ok [0] :=
  ⟨by decide, rfl,
   (claim_C3_roundtrip (Frame.array [Frame.bulk [255, 13], Frame.integer 5,
      Frame.simple [79, 75]]) (by decide) rfl _ [0] rfl 2 (by decide)).1,
   (claim_C3_roundtrip (Frame.array [Frame.bulk [255, 13], Frame.integer 5,
      Frame.simple [79, 75]]) (by decide) rfl _ [0] rfl 2 (by decide)).2⟩

/-- Claim C4 counterexample: decoding the bytes 43 255 13 10 (a simple
frame whose line is not UTF-8) fails with a Protocol error although the
leading type byte 43 is valid and the buffer contains no 36, 42 or 58
byte at all, so no null-bulk marker and no length — numeric or otherwise —
exists in it; the three listed causes are therefore not exhaustive. -/
theorem claim_C4_counterexample :
    connParseFrame [43, 255, 13, 10] = .error (.other protoInvalidFmt) ∧
    43 ∈ [43, 45, 58, 36, 42] ∧
    36 ∉ [43, 255, 13, 10] ∧ 42 ∉ [43, 255, 13, 10] ∧ 58 ∉ [43, 255, 13, 10] :=
  ⟨rfl, by decide, by decide, by decide, by decide⟩

/-- Claim C4 as amended: check answers Incomplete on every strict prefix
of a valid encoding and succeeds on the full encoding having consumed
exactly its length; decoding fails with Protocol when the leading type
byte is invalid, when the null-bulk marker is malformed, or when a length
line is not a u64 numeral — and also when a simple or error line is not
valid UTF-8, a cause the original sentence omits. -/
theorem claim_C4_check_errors :
    (∀ f bs, wfb f = true → writeFrame f = some bs →
      ∀ k, k < bs.length → ∀ fuel, depth f ≤ fuel →
        check fuel (bs.take k) = .error .incomplete) ∧
    (∀ f bs, wfb f = true → writeFrame f = some bs →
      ∀ fuel, depth f ≤ fuel → check fuel bs = .ok []) ∧
    (∀ b rest fuel, b ≠ 43 → b ≠ 45 → b ≠ 58 → b ≠ 36 → b ≠ 42 →
      check (fuel + 1) (b :: rest) = .error (.other (invalidTypeMsg b))) ∧
    (∀ tl line r fuel, getLine (45 :: tl) = some (line, r) → line ≠ [45, 49] →
      parseFrame (fuel + 1) (36 :: 45 :: tl) = .error (.other protoInvalidFmt)) ∧
    (∀ d tl line r fuel, d ≠ 45 → getLine (d :: tl) = some (line, r) →
      atoi line = none →
      check (fuel + 1) (36 :: d :: tl) = .error (.other protoInvalidFmt)) ∧
    (∀ rest line r fuel, getLine rest = some (line, r) → atoi line = none →
      check (fuel + 1) (42 :: rest) = .error (.other protoInvalidFmt)) ∧
    (∀ rest line r fuel, getLine rest = some (line, r) → validUtf8 line = false →
      parseFrame (fuel + 1) (43 :: rest) = .error (.other protoInvalidFmt)) ∧
    (∀ rest line r fuel, getLine rest = some (line, r) → validUtf8 line = false →
      parseFrame (fuel + 1) (45 :: rest) = .error (.other protoInvalidFmt)) := by
  refine ⟨?_, ?_, ?_, ?_, ?_, ?_, ?_, ?_⟩
  · intro f bs hwf henc k hk fuel hfuel
    refine pfxAll f hwf bs henc (bs.take k) (bs.drop k) (List.take_append_drop k bs) ?_
      fuel hfuel
    intro hnil
    rw [List.drop_eq_nil_iff] at hnil
    omega
  · intro f bs hwf henc fuel hfuel
    have := (rtAll f hwf bs henc [] fuel hfuel).1
    rwa [List.append_nil] at this
  · intro b rest fuel h43 h45 h58 h36 h42
    exact check_bad_eq fuel b rest h43 h45 h58 h36 h42
  · intro tl line r fuel hline hne
    rw [parse_null_eq, hline]
    simp [hne]
  · intro d tl line r fuel hd hline ha
    rw [check_bulk_eq _ _ _ hd, getDecimal_protocol hline ha]
  · intro rest line r fuel hline ha
    rw [check_array_eq, getDecimal_protocol hline ha]
  · intro rest line r fuel hline hu
    rw [parse_simple_eq, hline]
    simp [hu]
  · intro rest line r fuel hline hu
    rw [parse_err_eq, hline]
    simp [hu]

theorem claim_C4_check_errors_witness :
    check 1 [43, 72] = .error .incomplete ∧
    check 1 [43, 72, 13, 10] = .ok [] ∧
    check 1 [33] = .error (.other (invalidTypeMsg 33)) ∧
    parseFrame 1 [36, 45, 50, 13, 10] = .error (.other protoInvalidFmt) ∧
    check 1 [36, 97, 13, 10] = .error (.other protoInvalidFmt) ∧
    check 1 [42, 97, 13, 10] = .error (.other protoInvalidFmt) ∧
    parseFrame 1 [43, 255, 13, 10] = .error (.other protoInvalidFmt) ∧
    parseFrame 1 [45, 255, 13, 10] = .error (.other protoInvalidFmt) := by
  refine ⟨?_, ?_, ?_, ?_, ?_, ?_, ?_, ?_⟩
  · have h := claim_C4_check_errors.1 (Frame.simple [72]) [43, 72, 13, 10]
      (by decide) rfl 2 (by decide) 1 (by decide)
    simpa using h
  · exact claim_C4_check_errors.2.1 (Frame.simple [72]) [43, 72, 13, 10]
      (by decide) rfl 1 (by decide)
  · exact claim_C4_check_errors.2.2.1 33 [] 0 (by decide) (by decide) (by decide)
      (by decide) (by decide)
  · exact claim_C4_check_errors.2.2.2.1 [50, 13, 10] [45, 50] [] 0 rfl (by decide)
  · exact claim_C4_check_errors.2.2.2.2.1 97 [13, 10] [97] [] 0 (by decide) rfl
      (by decide)
  · exact claim_C4_check_errors.2.2.2.2.2.1 [97, 13, 10] [97] [] 0 rfl (by decide)
  · exact claim_C4_check_errors.2.2.2.2.2.2.1 [255, 13, 10] [255] [] 0 rfl (by decide)
  · exact claim_C4_check_errors.2.2.2.2.2.2.2 [255, 13, 10] [255] [] 0 rfl (by decide)

/-- Claim C5 counterexample: the writer has no output for an Array whose
element is itself an Array — write_value reaches unreachable code and
panics (modelled as none) — although section 4.1 defines the encoding of
that frame; the clause covering elements that are themselves Array frames
fails on the code. -/
theorem claim_C5_counterexample :
    writeFrame (Frame.array [Frame.array []]) = none ∧
    specEncode (Frame.array [Frame.array []]) = [42, 49, 13, 10, 42, 48, 13, 10] :=
  ⟨rfl, rfl⟩

/-- Claim C5 as amended: whenever the writer emits bytes for a frame whose
u64 length casts are lossless, those bytes are exactly the section 4.1
encoding — in particular an array is the star header followed by the
concatenation of the element encodings; and the writer emits nothing for
an array exactly when one of its elements is itself an Array (the
unreachable panic in write_value). -/
theorem claim_C5_writer :
    (∀ f bs, u64Ok f = true → writeFrame f = some bs → bs = specEncode f) ∧
    (∀ xs, writeFrame (.array xs) = none ↔ ∃ x ∈ xs, isArrayFrame x = true) :=
  ⟨fun _ _ hu h => writeFrame_eq_specEncode h hu, writeFrame_array_none_iff⟩

theorem claim_C5_writer_witness :
    u64Ok (Frame.array [Frame.bulk [255, 13], Frame.integer 5, Frame.simple [79, 75]]) = true ∧
    [42, 51, 13, 10, 36, 50, 13, 10, 255, 13, 13, 10, 58, 53, 13, 10, 43, 79, 75, 13, 10] =
      specEncode (Frame.array [Frame.bulk [255, 13], Frame.integer 5, Frame.simple [79, 75]]) ∧
    (writeFrame (Frame.array [Frame.array []]) = none ↔
      ∃ x ∈ [Frame.array []], isArrayFrame x = true) :=
  ⟨by decide,
   claim_C5_writer.1 (Frame.array [Frame.bulk [255, 13], Frame.integer 5,
     Frame.simple [79, 75]]) _ (by decide) rfl,
   claim_C5_writer.2 [Frame.array []]⟩

/-! Command-dispatch claims. -/

theorem parseStrings_bulks :
    ∀ {chs : List (List Nat)}, (∀ c ∈ chs, validUtf8 c = true) →
      parseStrings (chs.map Frame.bulk) = .ok chs := by
  intro chs
  induction chs with
  | nil => intro _; rfl
  | cons c cs ih =>
    intro h
    have hc : validUtf8 c = true := h c (List.mem_cons_self _ _)
    simp only [List.map_cons, parseStrings, strOfFrame, hc, if_true]
    rw [ih fun c2 hc2 => h c2 (List.mem_cons_of_mem _ hc2)]

theorem fromFrame_ping_noarg {s : List Nat} (hu : validUtf8 s = true)
    (hl : asciiLower s = str2b "ping") :
    fromFrame (.array [.bulk s]) = .ok (.ping none) := by
  have h1 : str2b "ping" ≠ str2b "get" := by decide
  have h2 : str2b "ping" ≠ str2b "set" := by decide
  have h3 : str2b "ping" ≠ str2b "publish" := by decide
  have h4 : str2b "ping" ≠ str2b "subscribe" := by decide
  have h5 : str2b "ping" ≠ str2b "unsubscribe" := by decide
  simp [fromFrame, nextString, strOfFrame, Except.map, hu, hl, h1, h2, h3, h4, h5,
    pingParseFrames, nextBytes, finishParse]

theorem fromFrame_ping_arg {s : List Nat} (hu : validUtf8 s = true)
    (hl : asciiLower s = str2b "ping") (m : List Nat) :
    fromFrame (.array [.bulk s, .bulk m]) = .ok (.ping (some m)) := by
  have h1 : str2b "ping" ≠ str2b "get" := by decide
  have h2 : str2b "ping" ≠ str2b "set" := by decide
  have h3 : str2b "ping" ≠ str2b "publish" := by decide
  have h4 : str2b "ping" ≠ str2b "subscribe" := by decide
  have h5 : str2b "ping" ≠ str2b "unsubscribe" := by decide
  simp [fromFrame, nextString, strOfFrame, Except.map, hu, hl, h1, h2, h3, h4, h5,
    pingParseFrames, nextBytes, finishParse]

/-- Claim C9: in subscribe mode a PING frame goes through the generic
Command::from_frame and lands in the Unknown arm of handle_sub_command, so
it is answered with the frame Error(ERR unknown command, quoting the name
ping) rather than with PONG, and the handler returns ok with the pending
list and the subscription map unchanged — the connection stays in
subscribe mode. -/
theorem claim_C9_subscribe_ping (pend subs : List (List Nat)) (s : List Nat)
    (hu : validUtf8 s = true) (hl : asciiLower s = str2b "ping") :
    handleSubCommand (.array [.bulk s]) pend subs =
      .ok (pend, subs, [unknownResponse (str2b "ping")]) ∧
    (∀ m, handleSubCommand (.array [.bulk s, .bulk m]) pend subs =
      .ok (pend, subs, [unknownResponse (str2b "ping")])) ∧
    unknownResponse (str2b "ping") =
      Frame.error (str2b "ERR unknown command " ++ [39] ++ str2b "ping" ++ [39]) ∧
    unknownResponse (str2b "ping") ≠ Frame.simple (str2b "PONG") := by
  refine ⟨?_, ?_, rfl, by simp [unknownResponse]⟩
  · rw [handleSubCommand, fromFrame_ping_noarg hu hl]
    rfl
  · intro m
    rw [handleSubCommand, fromFrame_ping_arg hu hl m]
    rfl

theorem claim_C9_subscribe_ping_witness :
    validUtf8 (str2b "PING") = true ∧
    asciiLower (str2b "PING") = str2b "ping" ∧
    handleSubCommand (.array [.bulk (str2b "PING")]) [] [[99]] =
      .ok ([], [[99]], [unknownResponse (str2b "ping")]) :=
  ⟨by decide, by decide,
   (claim_C9_subscribe_ping [] [[99]] (str2b "PING") (by decide) (by decide)).1⟩

theorem fromFrame_set {s : List Nat} (hu : validUtf8 s = true)
    (hl : asciiLower s = str2b "set") (rest : List Frame) :
    fromFrame (.array (.bulk s :: rest)) =
      match setParseFrames rest with
      | .ok ((k, v, e), r) =>
        match finishParse r with
        | .ok _ => .ok (.set k v e)
        | .error e2 => .error e2
      | .error e => .error e := by
  have h1 : str2b "set" ≠ str2b "get" := by decide
  simp [fromFrame, nextString, strOfFrame, Except.map, hu, hl, h1]

/-- Claim C8: Set::parse_frames takes a key and a value; a third token is
matched after to_uppercase, so the EX and PX keywords are case-insensitive,
EX counting seconds (a thousand milliseconds each) and PX milliseconds; a
third token that is neither is the SET-only-supports-expiration error; a
token after the expiration pair fails Parse::finish; and Set::apply stores
the entry and answers with Simple(OK). -/
theorem claim_C8_set_parsing (sv k v : List Nat) (hsvu : validUtf8 sv = true)
    (hsv : asciiLower sv = str2b "set") (hk : validUtf8 k = true) :
    fromFrame (.array [.bulk sv, .bulk k, .bulk v]) = .ok (.set k v none) ∧
    (∀ s n, validUtf8 s = true → asciiUpper s = str2b "EX" →
      fromFrame (.array [.bulk sv, .bulk k, .bulk v, .bulk s, .integer n]) =
        .ok (.set k v (some (1000 * n)))) ∧
    (∀ s n, validUtf8 s = true → asciiUpper s = str2b "PX" →
      fromFrame (.array [.bulk sv, .bulk k, .bulk v, .bulk s, .integer n]) =
        .ok (.set k v (some n))) ∧
    (∀ s, validUtf8 s = true → asciiUpper s ≠ str2b "EX" →
      asciiUpper s ≠ str2b "PX" →
      fromFrame (.array [.bulk sv, .bulk k, .bulk v, .bulk s]) =
        .error (.other setOnlyMsg)) ∧
    (∀ s n extra, validUtf8 s = true → asciiUpper s = str2b "EX" →
      fromFrame (.array [.bulk sv, .bulk k, .bulk v, .bulk s, .integer n, extra]) =
        .error (.other finishMoreMsg)) ∧
    (∀ st now e, Command.apply (.set k v e) st now =
      .ok ((dbSet st k v e now).1, [.simple (str2b "OK")], none)) := by
  refine ⟨?_, ?_, ?_, ?_, ?_, fun st now e => rfl⟩
  · rw [fromFrame_set hsvu hsv]
    simp [setParseFrames, nextString, nextBytes, strOfFrame, Except.map, hk, finishParse]
  · intro s n hs hex
    rw [fromFrame_set hsvu hsv]
    simp [setParseFrames, nextString, nextBytes, nextInt, strOfFrame, Except.map,
      hk, hs, hex, finishParse]
  · intro s n hs hpx
    have hne : str2b "PX" ≠ str2b "EX" := by decide
    rw [fromFrame_set hsvu hsv]
    simp [setParseFrames, nextString, nextBytes, nextInt, strOfFrame, Except.map,
      hk, hs, hpx, hne, finishParse]
  · intro s hs hex hpx
    rw [fromFrame_set hsvu hsv]
    simp [setParseFrames, nextString, nextBytes, strOfFrame, Except.map,
      hk, hs, hex, hpx]
  · intro s n extra hs hex
    rw [fromFrame_set hsvu hsv]
    simp [setParseFrames, nextString, nextBytes, nextInt, strOfFrame, Except.map,
      hk, hs, hex, finishParse]

theorem claim_C8_set_parsing_witness :
    validUtf8 (str2b "SET") = true ∧ asciiLower (str2b "SET") = str2b "set" ∧
    validUtf8 (str2b "k") = true ∧
    validUtf8 (str2b "eX") = true ∧ asciiUpper (str2b "eX") = str2b "EX" ∧
    fromFrame (.array [.bulk (str2b "SET"), .bulk (str2b "k"), .bulk (str2b "v"),
        .bulk (str2b "eX"), .integer 2]) =
      .ok (.set (str2b "k") (str2b "v") (some (1000 * 2))) :=
  ⟨by decide, by decide, by decide, by decide, by decide,
   (claim_C8_set_parsing (str2b "SET") (str2b "k") (str2b "v")
      (by decide) (by decide) (by decide)).2.1 (str2b "eX") 2 (by decide) (by decide)⟩

theorem fromFrame_unsub {s : List Nat} (hu : validUtf8 s = true)
    (hl : asciiLower s = str2b "unsubscribe") (chs : List (List Nat))
    (hchs : ∀ c ∈ chs, validUtf8 c = true) :
    fromFrame (.array (.bulk s :: chs.map Frame.bulk)) = .ok (.unsubscribe chs) := by
  have h1 : str2b "unsubscribe" ≠ str2b "get" := by decide
  have h2 : str2b "unsubscribe" ≠ str2b "set" := by decide
  have h3 : str2b "unsubscribe" ≠ str2b "publish" := by decide
  have h4 : str2b "unsubscribe" ≠ str2b "subscribe" := by decide
  simp [fromFrame, nextString, strOfFrame, Except.map, hu, hl, h1, h2, h3, h4,
    parseStrings_bulks hchs]

/-- Claim C10: an UNSUBSCRIBE frame reaching the top-level Command::apply
returns the error whose text quotes Unsubscribe in backticks and says it is
unsupported in this context, writing no response frame; the handler loop
propagates that error, so the error ends the run (the connection is
dropped) and no later frame of the script is processed — the result does
not depend on the remaining frames. -/
theorem claim_C10_unsubscribe (st : DbState) (now : Nat) (s : List Nat)
    (chs : List (List Nat)) (rest : List Frame) (hu : validUtf8 s = true)
    (hl : asciiLower s = str2b "unsubscribe")
    (hchs : ∀ c ∈ chs, validUtf8 c = true) :
    Command.apply (.unsubscribe chs) st now = .error (.other unsubUnsupportedMsg) ∧
    handlerLoop st now (.array (.bulk s :: chs.map Frame.bulk) :: rest) =
      .error (.other unsubUnsupportedMsg) ∧
    (∀ res : DbState × List Frame,
      handlerLoop st now (.array (.bulk s :: chs.map Frame.bulk) :: rest) ≠ .ok res) ∧
    unsubUnsupportedMsg =
      [96] ++ str2b "Unsubscribe" ++ [96] ++ str2b " is unsupported in this context" := by
  have hloop : handlerLoop st now (.array (.bulk s :: chs.map Frame.bulk) :: rest) =
      .error (.other unsubUnsupportedMsg) := by
    rw [handlerLoop, fromFrame_unsub hu hl chs hchs]
    rfl
  refine ⟨rfl, hloop, ?_, rfl⟩
  intro res hres
  rw [hloop] at hres
  exact Except.noConfusion hres

theorem claim_C10_unsubscribe_witness :
    validUtf8 (str2b "UNSUBSCRIBE") = true ∧
    asciiLower (str2b "UNSUBSCRIBE") = str2b "unsubscribe" ∧
    (∀ c ∈ [str2b "c"], validUtf8 c = true) ∧
    handlerLoop emptyDb 0
        (.array [.bulk (str2b "UNSUBSCRIBE"), .bulk (str2b "c")] ::
          [Frame.array [.bulk (str2b "ping")]]) =
      .error (.other unsubUnsupportedMsg) :=
  ⟨by decide, by decide, by decide,
   (claim_C10_unsubscribe emptyDb 0 (str2b "UNSUBSCRIBE") [str2b "c"]
      [Frame.array [.bulk (str2b "ping")]] (by decide) (by decide) (by decide)).2.1⟩
